import Mathlib

/-!
Verification of the nesting engine core (`nester/engine/core.py`).

The Python engine is shallowly embedded here.  All Python floats are
modelled as exact rationals (`ℚ`); the integer-millimetre inputs are `ℤ`.
The engine's `raise` statements are modelled with `Except String`; code
paths that cannot fail are plain functions.  The process-wide marker
memoisation cache is not modelled: for a pure function it is semantically
transparent (it only ever returns a previously computed value for an
identical key).

Python's `sorted` is stable, as is `List.mergeSort`, so every sort in the
source is embedded as a `mergeSort` with the same key.  Python's tuple
comparison is lexicographic; we embed sort keys into `Prod.Lex` types.
-/

namespace Nester

/-! ### Numeric helpers -/

/-- Tolerance `1e-9` used by the packer's fit tests. -/
def eps9 : ℚ := 1 / 1000000000

/-- Tolerance `1e-6` (`BOUNDARY_EPS` and the assertion tolerances). -/
def eps6 : ℚ := 1 / 1000000

/-- `MARKER_ROLL_LENGTH_MM = 5900`. -/
def MARKER_ROLL_LENGTH_MM : ℤ := 5900

/-- `SAFETY_GAP_X_MM = 10`. -/
def SAFETY_GAP_X_MM : ℚ := 10

/-- Round a rational to the nearest integer, ties to even
(Python's `round` on a float value). -/
def roundHalfEven (q : ℚ) : ℤ :=
  let f := ⌊q⌋
  let r := q - f
  if r < 1/2 then f
  else if r > 1/2 then f + 1
  else if Even f then f else f + 1

/-- Python's `round(q, d)`: round to `d` decimal digits, ties to even. -/
def roundTo (q : ℚ) (d : ℕ) : ℚ :=
  (roundHalfEven (q * 10 ^ d) : ℚ) / 10 ^ d

/-! ### Data model (`core.py` lines 30-109) -/

/-- `Placement` from the fabric nesting engine (a Python `NamedTuple`):
`x`/`h` run along the roll length, `y`/`w` across the roll width. -/
structure Placement where
  x : ℚ
  y : ℚ
  w : ℚ
  h : ℚ
  level : ℕ
  item_id : ℕ
  line_id : ℕ := 1
deriving DecidableEq, Repr

/-- The mutable per-shelf dictionary `{'x0', 'height', 'used_y'}` used by
the packer. -/
structure Shelf where
  x0 : ℚ
  height : ℚ
  used_y : ℚ
deriving DecidableEq, Repr

/-- `MarkerPlacedRect`: a rect in marker-local coordinates. -/
structure MarkerPlacedRect where
  item_id : ℕ
  level : ℕ
  x : ℚ
  y : ℚ
  w : ℚ
  h : ℚ
deriving DecidableEq, Repr

/-- `Marker`: a 5.9 m segment of the roll.  `rects` is always set by
`build_markers_from_layout`, so it is embedded as a plain list. -/
structure Marker where
  idx : ℕ
  batch_id : ℕ
  roll_width_mm : ℤ
  length_mm : ℚ
  rects : List MarkerPlacedRect
deriving DecidableEq, Repr

/-- `TubeCut`: one tube with its ordered cut list. -/
structure TubeCut where
  pieces_mm : List ℤ
  used_mm : ℤ
  waste_mm : ℤ
deriving DecidableEq, Repr

/-- `TubePattern`: a deduplicated cutting pattern with its count. -/
structure TubePattern where
  key : List ℤ
  sample : TubeCut
  count : ℕ
deriving DecidableEq, Repr

/-- `TubePlan`: the complete cutting plan. -/
structure TubePlan where
  total_pieces : ℕ
  num_tubes : ℕ
  stock_length_mm : ℤ
  kerf_mm : ℤ
  efficiency : ℚ
  total_used_mm : ℤ
  total_waste_mm : ℤ
  tubes : List TubeCut
  patterns : List TubePattern
  infeasible_pieces : List ℤ
deriving DecidableEq, Repr

/-- `Line`: input line for the efficiency calculation (the
`fabric_code`/`series` metadata fields are not used by the engine). -/
structure Line where
  line_id : String
  width_mm : ℤ
  drop_mm : ℤ
  qty : ℤ
deriving DecidableEq, Repr

/-! ### Fabric nesting: `_pack_ffdh` (`core.py` lines 116-209) -/

/-- The best-fit scan of `_pack_ffdh`: walk the shelves, keep the
candidate `(leftover, s_idx, s)` with the strictly smallest leftover.
Mirrors the `for s_idx, s in enumerate(shelves)` loop. -/
def ffdhBest (rollW gap wq hq : ℚ) (shelves : List Shelf) :
    Option (ℚ × ℕ × Shelf) :=
  shelves.enum.foldl
    (fun best (e : ℕ × Shelf) =>
      let s := e.2
      if hq > s.height + eps9 then best
      else
        let remaining := rollW - s.used_y
        let need := if s.used_y = 0 then wq else gap + wq
        if need ≤ remaining + eps9 then
          let leftover := remaining - need
          match best with
          | none => some (leftover, e.1, s)
          | some (bl, bi, bs) =>
              if leftover < bl then some (leftover, e.1, s)
              else some (bl, bi, bs)
        else best)
    none

/-- One iteration of the `for idx, (w_mm, h_mm) in enumerated` loop of
`_pack_ffdh`: place the piece on the best-fitting shelf, or open a new
shelf. -/
def ffdhStep (rollW gap : ℚ) (st : List Placement × List Shelf)
    (e : ℕ × (ℤ × ℤ)) : Except String (List Placement × List Shelf) :=
  let idx := e.1
  let wmm := e.2.1
  let hmm := e.2.2
  if wmm ≤ 0 ∨ hmm ≤ 0 then
    .error "Non-positive piece size."
  else
    let wq : ℚ := wmm
    let hq : ℚ := hmm
    match ffdhBest rollW gap wq hq st.2 with
    | some (_, s_idx, s) =>
        let y := if s.used_y = 0 then 0 else s.used_y + gap
        let p : Placement :=
          { x := s.x0, y := y, w := wq, h := hq, level := s_idx, item_id := idx }
        let s' := { s with used_y := s.used_y + (if y = 0 then wq else gap + wq) }
        .ok (st.1 ++ [p], st.2.set s_idx s')
    | none =>
        let x0 : ℚ :=
          match st.2.getLast? with
          | none => 0
          | some last => last.x0 + last.height + gap
        let p : Placement :=
          { x := x0, y := 0, w := wq, h := hq, level := st.2.length, item_id := idx }
        .ok (st.1 ++ [p], st.2 ++ [{ x0 := x0, height := hq, used_y := wq }])

/-- The legacy FFDH sort key `(-h, -w, idx)` (tuple comparison is
lexicographic). -/
def ffdhSortLe (a b : ℕ × (ℤ × ℤ)) : Bool :=
  decide ((toLex (-a.2.2, toLex (-a.2.1, a.1)) : ℤ ×ₗ (ℤ ×ₗ ℕ)) ≤
          toLex (-b.2.2, toLex (-b.2.1, b.1)))

/-- The per-shelf part of the packer's final invariant pass: piece
validity (`h ≤ height`, `x = x0`) and the sorted-interval overlap check. -/
def shelfCheck (ps : List Placement) (e : ℕ × Shelf) :
    Except String Unit :=
  let s := e.2
  let mine := ps.filter (fun p => p.level == e.1)
  if mine.any (fun p => decide (p.h > s.height + eps6 ∨ |p.x - s.x0| > eps6)) then
    .error "Invalid piece placed into shelf."
  else
    let ys := (mine.map (fun p => (p.y, p.y + p.w))).mergeSort
      (fun a b => decide ((toLex a : ℚ ×ₗ ℚ) ≤ toLex b))
    if (ys.zip ys.tail).any (fun ab => decide (ab.1.2 > ab.2.1 + eps6)) then
      .error "Overlap within shelf detected."
    else .ok ()

/-- The "final invariant pass (strict)" at the end of `_pack_ffdh`. -/
def ffdhCheck (rollW : ℚ) (ps : List Placement) (shelves : List Shelf) :
    Except String Unit := do
  if ps.any (fun p => decide (p.y + p.w > rollW + eps6)) then
    throw "Overflow across width"
  let _ ← shelves.enum.foldlM (fun _ e => shelfCheck ps e) ()
  pure ()

/-- `_pack_ffdh`: First-Fit Decreasing Height with best-fit shelf choice.
Note the defensive clamp `gap_mm = max(0.0, float(gap_mm))`. -/
def pack_ffdh (items : List (ℤ × ℤ)) (rollW : ℤ) (gapIn : ℚ)
    (keepInputOrder : Bool) : Except String (List Placement × List Shelf) :=
  if items = [] then .ok ([], [])
  else
    let gap := max 0 gapIn
    let maxW := (items.map Prod.fst).max?.getD 0
    if maxW > rollW then .error "Item width exceeds roll width."
    else do
      let enumerated :=
        if keepInputOrder then items.enum else items.enum.mergeSort ffdhSortLe
      let st ← enumerated.foldlM (ffdhStep (rollW : ℚ) gap) ([], [])
      ffdhCheck (rollW : ℚ) st.1 st.2
      pure st

/-! ### Fabric nesting: `_compact_layout` (`core.py` lines 212-282) -/

/-- `new_placements[new_placements.index(p)] = repl`: replace the first
occurrence of `target`.  (On the packer's output the target is always
present — `item_id`s are distinct — so the not-found case is
unreachable there.) -/
def updateFirst (l : List Placement) (target repl : Placement) :
    List Placement :=
  match l with
  | [] => []
  | a :: rest =>
      if a = target then repl :: rest else a :: updateFirst rest target repl

/-- The cursor walk of the intra-shelf left-shift: re-lay one level's
pieces (already sorted by `y`) from `y = 0`, updating the shared
placement list; returns the final `cursor_y`. -/
def leftShiftWalk (gap : ℚ) : List Placement → ℚ → ℕ → ℕ →
    List Placement → List Placement × ℚ
  | [], cursor, _, _, acc => (acc, cursor)
  | p :: rest, cursor, idx, total, acc =>
      let desired := cursor
      let acc' :=
        if |p.y - desired| > eps6 then
          updateFirst acc p { p with y := desired }
        else acc
      let cursor' := cursor + p.w + (if idx < total - 1 then gap else 0)
      leftShiftWalk gap rest cursor' (idx + 1) total acc'

/-- `shelves[lvl]` update helper (`List.set` with a record update). -/
def setShelfUsed (shelves : List Shelf) (lvl : ℕ) (u : ℚ) : List Shelf :=
  match shelves[lvl]? with
  | some s => shelves.set lvl { s with used_y := u }
  | none => shelves

/-- The levels present in a placement list, in order of first occurrence
(the iteration order of the Python `by_level` dict). -/
def levelsOf (ps : List Placement) : List ℕ :=
  (ps.map (·.level)).dedup

/-- The intra-shelf left-shift pass of `_compact_layout`. -/
def leftShift (rollW gap : ℚ) (ps : List Placement) (shelves : List Shelf) :
    List Placement × List Shelf :=
  (levelsOf ps).foldl
    (fun (st : List Placement × List Shelf) lvl =>
      let plist := ps.filter (fun p => p.level == lvl)
      let sortedP := plist.mergeSort (fun a b => decide (a.y ≤ b.y))
      let walked := leftShiftWalk gap sortedP 0 0 sortedP.length st.1
      (walked.1, setShelfUsed st.2 lvl (min rollW walked.2)))
    (ps, shelves)

/-- The mover walk of a shelf merge: every placement of level `i + 1` is
re-laid on level `i` after `start_y`; all other placements keep their
slot.  Returns the final `start_y`. -/
def mergeMoveWalk (i : ℕ) (x0 gap : ℚ) : List Placement → ℚ →
    List Placement × ℚ
  | [], sy => ([], sy)
  | p :: rest, sy =>
      if p.level = i + 1 then
        let newp := { p with x := x0, y := sy, level := i }
        let sy' := sy + p.w + (if sy > 0 then gap else 0)
        let r := mergeMoveWalk i x0 gap rest sy'
        (newp :: r.1, r.2)
      else
        let r := mergeMoveWalk i x0 gap rest sy
        (p :: r.1, r.2)

/-- The adjacent-shelf merge loop of `_compact_layout` (the `while i <
len(shelves) - 1` loop; a successful merge re-checks the same `i`). -/
def mergeLoop (rollW gap : ℚ) (i : ℕ) (shelves : List Shelf)
    (ps : List Placement) : List Shelf × List Placement :=
  if hlt : i + 1 < shelves.length then
    let s1 := shelves[i]
    let s2 := shelves[i + 1]
    if |s1.height - s2.height| ≤ eps6 then
      let connector := if s1.used_y > 0 ∧ s2.used_y > 0 then gap else 0
      if s1.used_y + connector + s2.used_y ≤ rollW + eps6 then
        let startY0 :=
          s1.used_y + (if s1.used_y > 0 ∧ s2.used_y > 0 then gap else 0)
        let moved := mergeMoveWalk i s1.x0 gap ps startY0
        let delta := s2.height + gap
        let shA := shelves.eraseIdx (i + 1)
        let shB := shA.enum.map
          (fun e => if i + 1 ≤ e.1 then { e.2 with x0 := e.2.x0 - delta } else e.2)
        let shC := setShelfUsed shB i (min rollW moved.2)
        let ps2 := moved.1.map (fun p =>
          let lvl := if p.level > i + 1 then p.level - 1 else p.level
          { p with level := lvl, x := if lvl = i then s1.x0 else p.x })
        mergeLoop rollW gap i shC ps2
      else mergeLoop rollW gap (i + 1) shelves ps
    else mergeLoop rollW gap (i + 1) shelves ps
  else (shelves, ps)
termination_by shelves.length - i
decreasing_by
  all_goals try omega
  all_goals
    simp only [setShelfUsed]
    have h1 : (shelves.eraseIdx (i + 1)).length = shelves.length - 1 := by
      rw [List.length_eraseIdx]; simp [hlt]
  all_goals split
  all_goals simp only [List.length_set, List.length_map, List.enum_length, h1]
  all_goals omega

/-- `_compact_layout`: intra-shelf left-shift, then adjacent equal-height
shelf merges. -/
def compact_layout (ps : List Placement) (shelves : List Shelf)
    (rollW : ℤ) (gapY : ℚ) : List Placement × List Shelf :=
  if ps = [] ∨ shelves = [] then (ps, shelves)
  else
    let shifted := leftShift (rollW : ℚ) gapY ps shelves
    let merged := mergeLoop (rollW : ℚ) gapY 0 shifted.2 shifted.1
    (merged.2, merged.1)

/-! ### Fabric nesting: `compute_layout` (`core.py` lines 285-359) -/

/-- The result dictionary of `compute_layout` (the timing entry of
`meta` is not modelled). -/
structure Layout where
  placements : List Placement
  used_length_mm : ℚ
  utilization : ℚ
  levels : ℕ
  roll_width_mm : ℤ
  gap_mm : ℚ
deriving DecidableEq, Repr

/-- The forced largest-first reorder of `compute_layout`:
`sorted(blinds, key=lambda t: (-(t[0]*t[1]), -t[0], -t[1]))`. -/
def sortBlinds (blinds : List (ℤ × ℤ)) : List (ℤ × ℤ) :=
  blinds.mergeSort (fun a b =>
    decide ((toLex (-(a.1 * a.2), toLex (-a.1, -a.2)) : ℤ ×ₗ (ℤ ×ₗ ℤ)) ≤
            toLex (-(b.1 * b.2), toLex (-b.1, -b.2))))

/-- The domain-limit validation loop of `compute_layout`. -/
def checkLimits : List (ℤ × ℤ) → Except String Unit
  | [] => .ok ()
  | (w, h) :: rest =>
      if w > 3200 then .error "Width exceeds maximum 3200mm."
      else if h > 5000 then .error "Drop exceeds maximum 5000mm."
      else if w ≤ 0 ∨ h ≤ 0 then .error "Non-positive dimensions encountered."
      else checkLimits rest

/-- `compute_layout`, returning the layout together with the internal
shelf list (which the Python function computes but does not return). -/
def compute_layout_full (blindsIn : List (ℤ × ℤ)) (rollW : ℤ) (gap : ℚ) :
    Except String (Layout × List Shelf) :=
  let blinds := sortBlinds blindsIn
  if blinds = [] then
    .ok ({ placements := [], used_length_mm := 0, utilization := 0,
           levels := 0, roll_width_mm := rollW, gap_mm := gap }, [])
  else if blinds.length > 100000 then .error "Too many pieces."
  else do
    checkLimits blinds
    let packed ← pack_ffdh blinds rollW gap true
    let compacted := compact_layout packed.1 packed.2 rollW gap
    let ps := compacted.1
    let shelves := compacted.2
    let usedLen : ℚ :=
      match shelves.getLast? with
      | some last => last.x0 + last.height
      | none => 0
    let totalArea : ℚ := ((blinds.map (fun wh => wh.1 * wh.2)).sum : ℤ)
    let denom := if usedLen > 0 then (rollW : ℚ) * usedLen else 0
    let util := if denom > 0 then totalArea / denom else 0
    pure ({ placements := ps,
            used_length_mm := roundTo usedLen 3,
            utilization := max 0 (min 1 util),
            levels := shelves.length,
            roll_width_mm := rollW, gap_mm := gap }, shelves)

/-- `compute_layout` as the caller sees it. -/
def compute_layout (blinds : List (ℤ × ℤ)) (rollW : ℤ) (gap : ℚ) :
    Except String Layout :=
  (compute_layout_full blinds rollW gap).map Prod.fst

/-! ### `compute_layout_per_line` (`core.py` lines 362-439) -/

/-- One line's input dict for `compute_layout_per_line`.  The Python
callers in this module always populate every key, so the `dict.get`
defaults of the source never fire and the fields are total here. -/
structure LineSpec where
  line_id : ℕ
  items : List (ℤ × ℤ)
  gap_mm : ℚ
  roll_width_mm : ℤ
deriving DecidableEq, Repr

/-- One line's result dict from `compute_layout_per_line`. -/
structure LineResult where
  line_id : ℕ
  placements : List Placement
  used_length_mm : ℚ
  util : ℚ
  fabric_m1 : ℚ
  fabric_m2 : ℚ
  levels : ℕ
  pieces : ℕ
  roll_width_mm : ℤ
deriving DecidableEq, Repr

/-- The `combined` metrics dict of `compute_layout_per_line` (its
`placements` entry is always the empty list in the source). -/
structure CombinedResult where
  used_length_mm : ℚ
  util : ℚ
  fabric_m1 : ℚ
  fabric_m2 : ℚ
  levels : ℕ
  pieces : ℕ
deriving DecidableEq, Repr

/-- The `{lines, combined}` result of `compute_layout_per_line`. -/
structure PerLineLayout where
  lines : List LineResult
  combined : CombinedResult
deriving DecidableEq, Repr

/-- The body of the `for li, line in enumerate(lines)` loop of
`compute_layout_per_line`: validate the line, pack it and build its
result dict. -/
def processLine (spec : LineSpec) : Except String LineResult := do
  if spec.items.length > 1000 then
    throw "Line quantity exceeds 1000."
  if spec.items ≠ [] ∧
      (spec.items.map Prod.fst).max?.getD 0 > spec.roll_width_mm then
    throw "Line item width exceeds roll width."
  let layout ← compute_layout spec.items spec.roll_width_mm spec.gap_mm
  let used := layout.used_length_mm
  pure { line_id := spec.line_id,
         placements := layout.placements.map (fun p => { p with line_id := spec.line_id }),
         used_length_mm := used,
         util := layout.utilization,
         fabric_m1 := used / 1000,
         fabric_m2 := (spec.roll_width_mm : ℚ) * used / 1000000,
         levels := layout.levels,
         pieces := spec.items.length,
         roll_width_mm := spec.roll_width_mm }

/-- Sequential monadic map over the lines (the Python `for` loop raises
out of the whole call on the first failing line). -/
def mapExcept (f : α → Except String β) : List α → Except String (List β)
  | [] => .ok []
  | a :: rest => do
      let b ← f a
      let bs ← mapExcept f rest
      pure (b :: bs)

/-- `compute_layout_per_line`: one `compute_layout` per line plus
combined metrics. -/
def compute_layout_per_line (lines : List LineSpec) :
    Except String PerLineLayout := do
  let results ← mapExcept processLine lines
  let totalArea : ℚ :=
    ((lines.map (fun l => (l.items.map (fun wh => wh.1 * wh.2)).sum)).sum : ℤ)
  let totalRollArea : ℚ :=
    (results.map (fun r => (r.roll_width_mm : ℚ) * r.used_length_mm)).sum
  let combinedUsed : ℚ := (results.map (·.used_length_mm)).sum
  pure { lines := results,
         combined :=
           { used_length_mm := combinedUsed,
             util := if totalRollArea > 0 then totalArea / totalRollArea else 0,
             fabric_m1 := combinedUsed / 1000,
             fabric_m2 := totalRollArea / 1000000,
             levels := (results.map (·.levels)).sum,
             pieces := (results.map (·.pieces)).sum } }

/-! ### `compute_efficiency` (`core.py` lines 1081-1193) -/

/-- One per-line result dict of `compute_efficiency` (values rounded as
in the source). -/
structure EffResult where
  line_id : String
  waste_factor_pct : ℚ
  utilization : ℚ
  used_length_mm : ℚ
  blind_area_m2 : ℚ
  roll_area_m2 : ℚ
  waste_area_m2 : ℚ
  roll_width_mm : ℤ
  pieces : ℕ
  levels : ℕ
deriving DecidableEq, Repr

/-- The totals dict of `compute_efficiency`.  (For empty input the
Python dict omits the `total_pieces`/`total_levels` keys; they are `0`
here.) -/
structure EffTotals where
  eff_pct : ℚ
  waste_pct : ℚ
  total_area_m2 : ℚ
  total_used_area_m2 : ℚ
  total_waste_area_m2 : ℚ
  total_pieces : ℕ
  total_levels : ℕ
deriving DecidableEq, Repr

/-- The roll-width selection of `compute_efficiency` (only called with a
non-empty line list; the `getD 0` defaults are unreachable there). -/
def selectRollWidth (lines : List Line) (cands : List ℤ) : ℤ :=
  if cands ≠ [] then
    let maxItemWidth := (lines.map (·.width_mm)).max?.getD 0
    let fitting := cands.filter (fun w => w ≥ maxItemWidth)
    if fitting ≠ [] then fitting.min?.getD 0
    else cands.max?.getD 0
  else
    max ((lines.map (·.width_mm)).max?.getD 0) 3000

/-- The `line_id_map.get(numeric_line_id, str(numeric_line_id))` lookup. -/
def lineIdLookup (m : List (ℕ × String)) (k : ℕ) : String :=
  match m.find? (fun e => e.1 == k) with
  | some e => e.2
  | none => toString k

/-- The per-line metrics computation inside `compute_efficiency`'s
result loop; the returned pair carries the unrounded
`(blind_area_m2, roll_area_m2)` used for the totals accumulation. -/
def effLineResult (idMap : List (ℕ × String)) (lr : LineResult) :
    EffResult × (ℚ × ℚ) :=
  let blindArea : ℚ := (lr.placements.map (fun p => p.w * p.h)).sum / 1000000
  let rollArea : ℚ := (lr.roll_width_mm : ℚ) * lr.used_length_mm / 1000000
  let wasteArea := rollArea - blindArea
  let wasteFactor := if blindArea > 0 then wasteArea / blindArea * 100 else 0
  ({ line_id := lineIdLookup idMap lr.line_id,
     waste_factor_pct := roundTo wasteFactor 2,
     utilization := roundTo (lr.util * 100) 2,
     used_length_mm := roundTo lr.used_length_mm 2,
     blind_area_m2 := roundTo blindArea 3,
     roll_area_m2 := roundTo rollArea 3,
     waste_area_m2 := roundTo wasteArea 3,
     roll_width_mm := lr.roll_width_mm,
     pieces := lr.pieces,
     levels := lr.levels }, (blindArea, rollArea))

/-- `compute_efficiency`: waste efficiency for a list of lines. -/
def compute_efficiency (lines : List Line) (cands : List ℤ) :
    Except String (List EffResult × EffTotals) :=
  if lines = [] then
    .ok ([], { eff_pct := 0, waste_pct := 100, total_area_m2 := 0,
               total_used_area_m2 := 0, total_waste_area_m2 := 0,
               total_pieces := 0, total_levels := 0 })
  else do
    let rollW := selectRollWidth lines cands
    let idMap := lines.enum.map (fun e => (e.1 + 1, e.2.line_id))
    let linesData := lines.enum.map (fun e =>
      ({ line_id := e.1 + 1,
         items := List.replicate e.2.qty.toNat (e.2.width_mm, e.2.drop_mm),
         gap_mm := 0,
         roll_width_mm := rollW } : LineSpec))
    let layoutResult ← compute_layout_per_line linesData
    let pairs := layoutResult.lines.map (effLineResult idMap)
    let results := pairs.map Prod.fst
    let totalBlindArea : ℚ := (pairs.map (fun pr => pr.2.1)).sum
    let totalRollArea : ℚ := (pairs.map (fun pr => pr.2.2)).sum
    let totalWasteArea := totalRollArea - totalBlindArea
    let overallUtil := if totalRollArea > 0 then totalBlindArea / totalRollArea else 0
    let overallWaste := 1 - overallUtil
    pure (results,
      { eff_pct := roundTo (overallUtil * 100) 2,
        waste_pct := roundTo (overallWaste * 100) 2,
        total_area_m2 := roundTo totalBlindArea 3,
        total_used_area_m2 := roundTo totalRollArea 3,
        total_waste_area_m2 := roundTo totalWasteArea 3,
        total_pieces := (results.map (·.pieces)).sum,
        total_levels := (results.map (·.levels)).sum })

/-! ### Marker segmentation (`core.py` lines 449-750)

The `(item_id, level, x, y, w, h)` tuples the source passes around are
represented by the `Placement` record itself (the unused `line_id` field
rides along). -/

/-- `_normalize_local_x`: translate to marker-local coordinates, then
shift so the group starts at `x = 0`.  Note the source uses the module
constant `MARKER_ROLL_LENGTH_MM` here, not the caller's `roll_length_mm`
parameter. -/
def normalize_local_x (items : List Placement) (markerIdx : ℤ) :
    List Placement :=
  if items = [] then []
  else
    let off : ℚ := (markerIdx : ℚ) * (MARKER_ROLL_LENGTH_MM : ℚ)
    let loc := items.map (fun p => { p with x := p.x - off })
    let minX : ℚ := (loc.map (·.x)).min?.getD 0
    if minX < 0 then loc.map (fun p => { p with x := p.x + (-minX) })
    else if minX > 0 then loc.map (fun p => { p with x := p.x + (-minX) })
    else loc

/-- The x-gap count: within each level, sort by `x` and count adjacent
pairs whose `h` values differ by more than `1e-6`. -/
def countXGaps (loc : List Placement) : ℕ :=
  let lvls := (loc.map (·.level)).dedup
  (lvls.map (fun l =>
    let sortedRects := (loc.filter (fun p => p.level == l)).mergeSort
      (fun a b => decide (a.x ≤ b.x))
    ((sortedRects.zip sortedRects.tail).filter
      (fun ab => decide (|ab.1.h - ab.2.h| > eps6))).length)).sum

/-- `_estimate_length_with_gaps`: the gap-aware marker length estimate
(`APPLY_GAPS_TO_LENGTH` is `True` in the source). -/
def estimate_length_with_gaps (ps : List Placement) (markerIdx : ℤ) : ℚ :=
  if ps = [] then 0
  else
    let loc := normalize_local_x ps markerIdx
    if loc = [] then 0
    else
      let used := (loc.map (fun p => p.x + p.h)).max?.getD 0
      let gc := countXGaps loc
      if gc > 0 then used + (gc : ℚ) * SAFETY_GAP_X_MM else used

/-- The `(p.x, p.level, p.item_id)` sort key of the segmenter. -/
def markerSortLe (a b : Placement) : Bool :=
  decide ((toLex (a.x, toLex (a.level, a.item_id)) : ℚ ×ₗ (ℕ ×ₗ ℕ)) ≤
          toLex (b.x, toLex (b.level, b.item_id)))

/-- The cut-line assignment: marker `⌊x / roll_length⌋`, with the push
rule for rects that would cross the boundary. -/
def assignBucket (L : ℤ) (p : Placement) : ℤ :=
  let mStart := ⌊p.x / (L : ℚ)⌋
  let boundary : ℚ := ((mStart + 1 : ℤ) : ℚ) * (L : ℚ)
  if p.x + p.h ≤ boundary - eps6 then mStart else mStart + 1

/-- The greedy regrouping walk of the overlong-bucket split:
`(finished groups, current group, next_marker_idx)`. -/
def splitWalk (L : ℚ) : List Placement → List (ℤ × List Placement) →
    List Placement → ℤ → List (ℤ × List Placement) × List Placement × ℤ
  | [], acc, cur, nxt => (acc, cur, nxt)
  | p :: rest, acc, cur, nxt =>
      let temp := cur ++ [p]
      if estimate_length_with_gaps temp nxt > L + eps6 ∧ cur ≠ [] then
        splitWalk L rest (acc ++ [(nxt, cur)]) [p] (nxt + 1)
      else splitWalk L rest acc temp nxt

/-- The overlong-bucket split: flush the trailing group, return the new
`next_marker_idx`. -/
def splitGroups (L : ℚ) (q : List Placement) (nxt : ℤ) :
    List (ℤ × List Placement) × ℤ :=
  let r := splitWalk L q [] [] nxt
  if r.2.1 ≠ [] then (r.1 ++ [(r.2.2, r.2.1)], r.2.2 + 1) else (r.1, r.2.2)

/-- The per-bucket finalisation of `build_markers_from_layout`: local
normalisation, gap-aware length, the pathological minimal-shift branch,
the clamp, and the `MarkerPlacedRect` conversion.  Returns `none` for an
empty bucket (the `continue` in the source). -/
def mkMarker (rollW : ℤ) (batchId : ℕ) (L : ℤ) (kg : ℤ × List Placement)
    (mi : ℕ) : Option Marker :=
  let items := kg.2
  let segIdx : ℤ :=
    if items ≠ [] then ⌊((items.map (·.x)).min?.getD 0) / (L : ℚ)⌋ else kg.1
  let loc := normalize_local_x items segIdx
  if loc = [] then none
  else
    let used0 := (loc.map (fun p => p.x + p.h)).max?.getD 0
    let gc := countXGaps loc
    let used1 := if gc > 0 then used0 + (gc : ℚ) * SAFETY_GAP_X_MM else used0
    let shifted :=
      if used1 > (L : ℚ) + 1/2 then
        let excess := used1 - (L : ℚ)
        let l2 := loc.map (fun p => { p with x := p.x - excess })
        (l2, (l2.map (fun p => p.x + p.h)).max?.getD 0)
      else (loc, used1)
    let usedF := min shifted.2 (L : ℚ)
    some { idx := mi, batch_id := batchId, roll_width_mm := rollW,
           length_mm := usedF,
           rects := shifted.1.map (fun p =>
             { item_id := p.item_id, level := p.level,
               x := p.x, y := p.y, w := p.w, h := p.h }) }

/-- `build_markers_from_layout`: cut-line-aware segmentation of a
placement list into markers.  (The memoisation cache of the source is
not modelled; it only replays an identical previous result.) -/
def build_markers_from_layout (placements : List Placement) (rollW : ℤ)
    (batchId : ℕ) (L : ℤ := MARKER_ROLL_LENGTH_MM) : List Marker :=
  if placements = [] then []
  else
    let sortedPs := placements.mergeSort markerSortLe
    let asg := sortedPs.map (assignBucket L)
    let keys := (asg.mergeSort (fun a b => decide (a ≤ b))).dedup
    let maxKey := asg.max?.getD 0
    let processed := (keys.foldl
      (fun (st : List (ℤ × List Placement) × ℤ) k =>
        let bucket := sortedPs.filter (fun p => assignBucket L p == k)
        let est := estimate_length_with_gaps bucket k
        if est > (L : ℚ) + eps6 then
          let sg := splitGroups (L : ℚ) (bucket.mergeSort markerSortLe) st.2
          (st.1 ++ sg.1, sg.2)
        else (st.1 ++ [(k, bucket)], st.2))
      ([], maxKey + 1)).1
    let ordered := processed.mergeSort (fun a b => decide (a.1 ≤ b.1))
    (ordered.foldl
      (fun (st : List Marker × ℕ) kg =>
        match mkMarker rollW batchId L kg st.2 with
        | some m => (st.1 ++ [m], st.2 + 1)
        | none => st)
      ([], 1)).1

/-! ### Tube cutting (`core.py` lines 762-1074) -/

/-- `validate_pieces`: skip non-positive quantities and widths, divert
over-long widths to the infeasible list (the human-readable reason
strings of the source are not modelled), and expand by quantity. -/
def validate_pieces (items : List (ℤ × ℤ)) (stock : ℤ) :
    List ℤ × List ℤ :=
  items.foldl
    (fun (st : List ℤ × List ℤ) it =>
      if it.2 ≤ 0 then st
      else if it.1 ≤ 0 then st
      else if it.1 > stock then (st.1, st.2 ++ [it.1])
      else (st.1 ++ List.replicate it.2.toNat it.1, st.2))
    ([], [])

/-- `calc_used`: used length of a cut list including kerfs. -/
def calcUsed (kerf : ℤ) (l : List ℤ) : ℤ :=
  if l = [] then 0 else l.sum + kerf * ((l.length : ℤ) - 1)

/-- Mutable tube state of `pack_bfd` (`{'pieces': [...], 'used': n}`). -/
structure BTube where
  pieces : List ℤ
  used : ℤ
deriving DecidableEq, Repr

/-- `needed = piece + kerf` when the tube already holds a piece. -/
def bfdNeeded (kerf p : ℤ) (t : BTube) : ℤ :=
  if t.pieces = [] then p else p + kerf

/-- One step of the best-fit scan of `pack_bfd`: take tube `i` as the
new best when the piece fits and the remaining capacity improves
(`best_remaining` starts as infinity, i.e. `none`). -/
def bfdStepBest (stock kerf p : ℤ) (i : ℕ) (t : BTube)
    (best : Option (ℕ × ℤ)) : Option (ℕ × ℤ) :=
  if decide (bfdNeeded kerf p t ≤ stock - t.used) &&
      (match best with
       | none => true
       | some b => decide (stock - t.used < b.2)) then
    some (i, stock - t.used)
  else best

/-- The best-fit scan of `pack_bfd`: find the tube with the smallest
remaining capacity that fits the piece. -/
def bfdFind (stock kerf p : ℤ) : List BTube → ℕ → Option (ℕ × ℤ) →
    Option (ℕ × ℤ)
  | [], _, best => best
  | t :: rest, i, best =>
      bfdFind stock kerf p rest (i + 1) (bfdStepBest stock kerf p i t best)

/-- Add a piece to a tube (`used += kerf` when not the first piece). -/
def bfdAdd (t : BTube) (p kerf : ℤ) : BTube :=
  if t.pieces = [] then { pieces := t.pieces ++ [p], used := t.used + p }
  else { pieces := t.pieces ++ [p], used := t.used + kerf + p }

/-- In-place update of the tube at index `i` (a no-op out of range,
which is unreachable: `bfdFind` only returns valid indices). -/
def modifyAt (l : List BTube) (i : ℕ) (f : BTube → BTube) : List BTube :=
  match l[i]? with
  | some t => l.set i (f t)
  | none => l

/-- The piece loop of `pack_bfd`. -/
def packLoop (stock kerf : ℤ) : List ℤ → List BTube → List BTube
  | [], tubes => tubes
  | p :: rest, tubes =>
      match bfdFind stock kerf p tubes 0 none with
      | some ib => packLoop stock kerf rest (modifyAt tubes ib.1 (fun t => bfdAdd t p kerf))
      | none => packLoop stock kerf rest (tubes ++ [{ pieces := [p], used := p }])

/-- `pack_bfd`: Best-Fit Decreasing bin packing. -/
def pack_bfd (pieces : List ℤ) (stock kerf : ℤ) : List TubeCut :=
  (packLoop stock kerf pieces []).map
    (fun t => { pieces_mm := t.pieces, used_mm := t.used,
                waste_mm := stock - t.used })

/-- The acceptance test of `improve_pair_swaps` for the ordered tube pair
`(A, B)`: the scan over `A`'s pieces accepts a move only when it empties
`A`, i.e. when `A` is a singleton whose piece fits into `B`. -/
def movePred (stock kerf : ℤ) (A B : List ℤ) : Bool :=
  (A.length == 1) && !(B == []) && decide (calcUsed kerf (B ++ A) ≤ stock)

/-- Scan the tubes after `A` for the first `B` accepting a move. -/
def scanJ (stock kerf : ℤ) (A : List ℤ) : List (List ℤ) → Option ℕ
  | [] => none
  | B :: rest =>
      if movePred stock kerf A B then some 0
      else (scanJ stock kerf A rest).map (· + 1)

/-- Scan all ordered pairs `(i, j)`, `i < j`, in lexicographic order for
the first accepted move (the `for i / for j` loops with their `break`s). -/
def scanI (stock kerf : ℤ) : List (List ℤ) → Option (ℕ × ℕ)
  | [] => none
  | A :: rest =>
      match scanJ stock kerf A rest with
      | some dj => some (0, dj + 1)
      | none => (scanI stock kerf rest).map (fun ij => (ij.1 + 1, ij.2 + 1))

/-- Apply an accepted move: empty tube `i`, append its single piece to
tube `j`. -/
def applyMove (tubes : List (List ℤ)) (i j : ℕ) : List (List ℤ) :=
  let a := (tubes[i]?.getD []).headD 0
  let B := tubes[j]?.getD []
  (tubes.set i []).set j (B ++ [a])

/-- One pass of `improve_pair_swaps`: at most one accepted move, then the
empty-tube prune. -/
def improvePass (stock kerf : ℤ) (tubes : List (List ℤ)) :
    List (List ℤ) × Bool :=
  match scanI stock kerf tubes with
  | some ij => ((applyMove tubes ij.1 ij.2).filter (fun t => !t.isEmpty), true)
  | none => (tubes.filter (fun t => !t.isEmpty), false)

/-- `improve_pair_swaps` with `max_passes = 2`: the second pass runs only
if the first one improved. -/
def improve_pair_swaps (tubes : List TubeCut) (stock kerf : ℤ) :
    List TubeCut :=
  if tubes.length ≤ 1 then tubes
  else
    let t0 := tubes.map (·.pieces_mm)
    let p1 := improvePass stock kerf t0
    let t2 := if p1.2 then (improvePass stock kerf p1.1).1 else p1.1
    (t2.filter (fun t => !t.isEmpty)).map
      (fun pieces =>
        { pieces_mm := pieces, used_mm := calcUsed kerf pieces,
          waste_mm := stock - calcUsed kerf pieces })

/-- `dedupe_patterns`: group tubes by sorted piece list (insertion
order, like a Python dict), then sort by `(-count, -sum(key))`. -/
def dedupe_patterns (tubes : List TubeCut) : List TubePattern :=
  let pm := tubes.foldl
    (fun (acc : List (List ℤ × TubeCut × ℕ)) tube =>
      let key := tube.pieces_mm.mergeSort (fun a b => decide (a ≤ b))
      if acc.any (fun e => e.1 == key) then
        acc.map (fun e => if e.1 == key then (e.1, e.2.1, e.2.2 + 1) else e)
      else acc ++ [(key, tube, 1)])
    []
  let patterns := pm.map (fun e =>
    ({ key := e.1, sample := e.2.1, count := e.2.2 } : TubePattern))
  patterns.mergeSort (fun a b =>
    decide ((toLex (-(a.count : ℤ), -a.key.sum) : ℤ ×ₗ ℤ) ≤
            toLex (-(b.count : ℤ), -b.key.sum)))

/-- `compute_tube_plan`: validation, BFD, pairwise improvement, pattern
dedup and totals. -/
def compute_tube_plan (items : List (ℤ × ℤ)) (stock : ℤ := 6000)
    (kerf : ℤ := 0) : TubePlan :=
  let v := validate_pieces items stock
  let pieces := v.1
  if pieces = [] then
    { total_pieces := 0, num_tubes := 0, stock_length_mm := stock,
      kerf_mm := kerf, efficiency := 0, total_used_mm := 0,
      total_waste_mm := 0, tubes := [], patterns := [],
      infeasible_pieces := v.2 }
  else
    let sortedPieces := pieces.mergeSort (fun a b => decide (b ≤ a))
    let tubes0 := pack_bfd sortedPieces stock kerf
    let tubes := improve_pair_swaps tubes0 stock kerf
    let patterns := dedupe_patterns tubes
    let totalUsed : ℤ := (tubes.map (·.used_mm)).sum
    let totalWaste : ℤ := (tubes.map (·.waste_mm)).sum
    { total_pieces := pieces.length,
      num_tubes := tubes.length,
      stock_length_mm := stock,
      kerf_mm := kerf,
      efficiency :=
        if tubes ≠ [] then (totalUsed : ℚ) / ((tubes.length : ℚ) * (stock : ℚ))
        else 0,
      total_used_mm := totalUsed,
      total_waste_mm := totalWaste,
      tubes := tubes,
      patterns := patterns,
      infeasible_pieces := v.2 }

/-! ### Invariant predicates used by the theorems -/

/-- Invariant of the BFD tube state: every open tube is non-empty, its
`used` field is the kerf-inclusive length of its pieces, it fits the
stock, and all its pieces are positive. -/
def TubesInv (stock kerf : ℤ) (ts : List BTube) : Prop :=
  ∀ t ∈ ts, t.pieces ≠ [] ∧ t.used = calcUsed kerf t.pieces ∧
    t.used ≤ stock ∧ ∀ p ∈ t.pieces, 0 < p

/-- Invariant on the raw piece lists inside `improve_pair_swaps`. -/
def PieceListsInv (stock kerf : ℤ) (ts : List (List ℤ)) : Prop :=
  ∀ t ∈ ts, calcUsed kerf t ≤ stock ∧ ∀ p ∈ t, 0 < p

/-! ### Concrete inputs and expected outputs used by the theorems -/

/-- Decidable equality for `Except` results. -/
instance {ε α : Type _} [DecidableEq ε] [DecidableEq α] :
    DecidableEq (Except ε α) := fun x y =>
  match x, y with
  | .ok a, .ok b =>
      if h : a = b then .isTrue (by rw [h]) else .isFalse (by simp [h])
  | .error a, .error b =>
      if h : a = b then .isTrue (by rw [h]) else .isFalse (by simp [h])
  | .ok _, .error _ => .isFalse (by simp)
  | .error _, .ok _ => .isFalse (by simp)

/-- Fallback placement for `getD` lookups in concrete statements. -/
def pdefault : Placement :=
  { x := 0, y := 0, w := 0, h := 0, level := 0, item_id := 0 }

/-- Fallback shelf for `getD` lookups in concrete statements. -/
def sdefault : Shelf := { x0 := 0, height := 0, used_y := 0 }

/-- A valid `compute_layout` input (all dimensions positive and within
the domain limits, max width `3000 ≤ roll_width`) whose packing opens
four shelves; with `gap = 5e-7` the two equal-height 1500 mm shelves
slip inside the `1e-6` merge tolerance even though the `1e-9` packing
tolerance kept them apart. -/
def c15Input : List (ℤ × ℤ) := [(3000, 2500), (1500, 2000), (1500, 2000), (2999, 1000)]

/-- The gap `5e-7 ≥ 0` (a Python float of that size behaves
identically at every comparison on this input). -/
def c15Gap : ℚ := 1 / 2000000

/-- The layout `compute_layout` actually returns on `c15Input`: after the
shelf merge, the last placement keeps its stale `x = 6500.0000015`
although its shelf was shifted to `x0 = 4500.000001`. -/
def c15Layout : Layout :=
  { placements :=
      [{ x := 0, y := 0, w := 3000, h := 2500, level := 0, item_id := 0, line_id := 1 },
       { x := 5000000001/2000000, y := 0, w := 1500, h := 2000, level := 1, item_id := 1, line_id := 1 },
       { x := 5000000001/2000000, y := 3000000001/2000000, w := 1500, h := 2000, level := 1, item_id := 2, line_id := 1 },
       { x := 13000000003/2000000, y := 0, w := 2999, h := 1000, level := 2, item_id := 3, line_id := 1 }],
    used_length_mm := 5500,
    utilization := 16499000000/16500000003,
    levels := 3,
    roll_width_mm := 3000,
    gap_mm := 1/2000000 }

/-- The shelf list `compute_layout` computes on `c15Input`. -/
def c15Shelves : List Shelf :=
  [{ x0 := 0, height := 2500, used_y := 3000 },
   { x0 := 5000000001/2000000, height := 2000, used_y := 3000 },
   { x0 := 4500000001/1000000, height := 1000, used_y := 2999 }]

/-- The single line of end-to-end scenario 1. -/
def c2Line : Line := { line_id := "L1", width_mm := 2400, drop_mm := 2100, qty := 1 }

/-- Scenario 1 expected per-line result. -/
def c2Result : EffResult :=
  { line_id := "L1", waste_factor_pct := 25, utilization := 80,
    used_length_mm := 2100, blind_area_m2 := 126/25, roll_area_m2 := 63/10,
    waste_area_m2 := 63/50, roll_width_mm := 3000, pieces := 1, levels := 1 }

/-- Scenario 1 expected totals. -/
def c2Totals : EffTotals :=
  { eff_pct := 80, waste_pct := 20, total_area_m2 := 126/25,
    total_used_area_m2 := 63/10, total_waste_area_m2 := 63/50,
    total_pieces := 1, total_levels := 1 }

/-- The input whose first caller-order piece is not the largest. -/
def c6Input : List (ℤ × ℤ) := [(1000, 1000), (2000, 2000)]

/-- What `compute_layout` returns on `c6Input`: `item_id 0` is the piece
`(2000, 2000)` — index 0 of the internally re-sorted list, not of the
caller's list. -/
def c6Layout : Layout :=
  { placements :=
      [{ x := 0, y := 0, w := 2000, h := 2000, level := 0, item_id := 0, line_id := 1 },
       { x := 0, y := 2000, w := 1000, h := 1000, level := 0, item_id := 1, line_id := 1 }],
    used_length_mm := 2000, utilization := 5/6, levels := 1,
    roll_width_mm := 3000, gap_mm := 0 }

/-- The layout `compute_layout` returns for a single piece and gap `-1`:
the negative gap is clamped, no error is raised. -/
def c7Layout : Layout :=
  { placements := [{ x := 0, y := 0, w := 1000, h := 1000, level := 0, item_id := 0, line_id := 1 }],
    used_length_mm := 1000, utilization := 1/3, levels := 1,
    roll_width_mm := 3000, gap_mm := -1 }

/-- A placement whose drop exceeds the 5.9 m marker length. -/
def c3BadPlacement : Placement :=
  { x := 0, y := 0, w := 1000, h := 7000, level := 0, item_id := 0 }

/-- The marker produced for `c3BadPlacement`: the minimal-shift branch
pushes its rect to `x = -1100 < 0`. -/
def c3BadMarker : Marker :=
  { idx := 1, batch_id := 1, roll_width_mm := 3000, length_mm := 5900,
    rects := [{ item_id := 0, level := 0, x := -1100, y := 0, w := 1000, h := 7000 }] }

/-- Two placements sharing the segmenter sort key `(x, level, item_id) =
(0, 0, 0)` but with different `y`, `w`, `h`. -/
def c10P1 : Placement := { x := 0, y := 0, w := 100, h := 100, level := 0, item_id := 0 }

/-- Second placement with the same sort key as `c10P1`. -/
def c10P2 : Placement := { x := 0, y := 200, w := 100, h := 200, level := 0, item_id := 0 }

/-- The marker produced for `[c10P1, c10P2]`. -/
def c10MarkerA : Marker :=
  { idx := 1, batch_id := 1, roll_width_mm := 3000, length_mm := 210,
    rects := [{ item_id := 0, level := 0, x := 0, y := 0, w := 100, h := 100 },
              { item_id := 0, level := 0, x := 0, y := 200, w := 100, h := 200 }] }

/-- The marker produced for `[c10P2, c10P1]`: same rects, other order. -/
def c10MarkerB : Marker :=
  { idx := 1, batch_id := 1, roll_width_mm := 3000, length_mm := 210,
    rects := [{ item_id := 0, level := 0, x := 0, y := 200, w := 100, h := 200 },
              { item_id := 0, level := 0, x := 0, y := 0, w := 100, h := 100 }] }

/-- The `(item_id, w, h)` content of a placement — the data compaction
must not alter. -/
def ptriple (p : Placement) : ℕ × ℚ × ℚ := (p.item_id, p.w, p.h)

/-- The shelf list `compute_layout` computes on `c6Input`. -/
def c6Shelves : List Shelf := [{ x0 := 0, height := 2000, used_y := 3000 }]

/-- The per-line result `compute_efficiency` produces for a zero-quantity
line with candidate widths `[1900, 2050, 2400, 3000]` (used by the C8
witness). -/
def c8WitnessResult : EffResult :=
  { line_id := "1", waste_factor_pct := 0, utilization := 0,
    used_length_mm := 0, blind_area_m2 := 0, roll_area_m2 := 0,
    waste_area_m2 := 0, roll_width_mm := 2400, pieces := 0, levels := 0 }

/-- The totals for the C8 witness input. -/
def c8WitnessTotals : EffTotals :=
  { eff_pct := 0, waste_pct := 100, total_area_m2 := 0,
    total_used_area_m2 := 0, total_waste_area_m2 := 0,
    total_pieces := 0, total_levels := 0 }

/-- The `(x, level, item_id)` sort key of the segmenter as a lexicographic value. -/
def markerKey (p : Placement) : ℚ ×ₗ (ℕ ×ₗ ℕ) :=
  toLex (p.x, toLex (p.level, p.item_id))

/-- A placement with a sort key distinct from `c10Q2`'s. -/
def c10Q1 : Placement := { x := 0, y := 0, w := 1000, h := 1000, level := 0, item_id := 0 }

/-- A placement with a sort key distinct from `c10Q1`'s. -/
def c10Q2 : Placement := { x := 0, y := 1000, w := 1000, h := 1000, level := 0, item_id := 1 }

/-- The `(item_id, w, h)` triple of a marker rect. -/
def rtriple (r : MarkerPlacedRect) : ℕ × ℚ × ℚ := (r.item_id, r.w, r.h)

/-- The minimal `x` of a placement list (`0` for the empty list). -/
def minX0 (items : List Placement) : ℚ := ((items.map (fun p => p.x)).min?).getD 0

/-- A group whose gap-aware length estimate fits one marker roll. -/
def goodGroup (L : ℚ) (g : List Placement) : Prop :=
  estimate_length_with_gaps g 0 ≤ L + eps6

/-- Every rect of the marker lies in `[0, length + 1/2]` along `x`. -/
def markerOK (m : Marker) : Prop :=
  ∀ r ∈ m.rects, 0 ≤ r.x ∧ r.x + r.h ≤ m.length_mm + 1/2

/-- First piece of the C3 witness input (drop well below 5900). -/
def c3W1 : Placement := { x := 0, y := 0, w := 100, h := 100, level := 0, item_id := 0 }

/-- Second piece of the C3 witness input (drop well below 5900). -/
def c3W2 : Placement := { x := 0, y := 200, w := 100, h := 200, level := 0, item_id := 1 }

/-! ## Theorems -/

/-- C1: on the valid input `c15Input` (positive dimensions within the
domain limits, max width = roll width = 3000, gap `5e-7 ≥ 0`) the
adjacent equal-height shelf merge of `_compact_layout` fires, shifts the
following shelf's `x0` left by `2000.0000005`, but leaves that shelf's
placement at its stale `x`: the returned placement with `item_id = 3`
sits at `x = 6500.0000015` while its shelf (`level = 2`) has
`x0 = 4500.000001`, violating the claimed invariant `x = shelf(level).x0`. -/
theorem C1_compact_merge_stale_x :
    compute_layout_full c15Input 3000 c15Gap = .ok (c15Layout, c15Shelves) ∧
    (c15Layout.placements.getD 3 pdefault).level = 2 ∧
    (c15Layout.placements.getD 3 pdefault).x = 13000000003/2000000 ∧
    (c15Shelves.getD 2 sdefault).x0 = 4500000001/1000000 ∧
    (c15Layout.placements.getD 3 pdefault).x ≠ (c15Shelves.getD 2 sdefault).x0 := by
  refine ⟨by with_unfolding_all rfl, by with_unfolding_all rfl,
    by with_unfolding_all rfl, by with_unfolding_all rfl, by with_unfolding_all decide⟩

/-- C5: on the same valid input, the returned `used_length_mm` (5500, the
last shelf's `x0 + height` rounded to 3 decimals) differs from
`max(placement.x + placement.h) = 7500.0000015` by more than 2000 mm —
far beyond any ε — because the merge left a stale placement `x` behind. -/
theorem C5_used_length_vs_max_extent :
    compute_layout_full c15Input 3000 c15Gap = .ok (c15Layout, c15Shelves) ∧
    c15Layout.used_length_mm =
      roundTo ((c15Shelves.getD 2 sdefault).x0 + (c15Shelves.getD 2 sdefault).height) 3 ∧
    (c15Layout.placements.map (fun p => p.x + p.h)).max?.getD 0 = 15000000003/2000000 ∧
    (c15Layout.placements.map (fun p => p.x + p.h)).max?.getD 0 -
      c15Layout.used_length_mm > 2000 := by
  refine ⟨by with_unfolding_all rfl, by with_unfolding_all rfl,
    by with_unfolding_all rfl, by with_unfolding_all decide⟩

/-- C2: `compute_efficiency` on the single line `{2400, 2100, qty 1}`
with no candidate widths picks roll width `max(2400, 3000) = 3000`,
produces exactly the one placement `(x=0, y=0, w=2400, h=2100, level=0)`,
a per-line `used_length_mm` of 2100 and utilization 80, and totals with
`eff_pct = 80`. -/
theorem C2_single_line_one_piece :
    selectRollWidth [c2Line] [] = 3000 ∧
    (compute_layout_per_line
        [{ line_id := 1, items := [(2400, 2100)], gap_mm := 0, roll_width_mm := 3000 }]).map
      (fun r => r.lines.map (·.placements)) =
      .ok [[{ x := 0, y := 0, w := 2400, h := 2100, level := 0, item_id := 0, line_id := 1 }]] ∧
    compute_efficiency [c2Line] [] = .ok ([c2Result], c2Totals) := by
  refine ⟨by with_unfolding_all rfl, by with_unfolding_all rfl, by with_unfolding_all rfl⟩

/-- C9: `compute_tube_plan` on `[(2500,2),(1500,3),(1000,1)]` with stock
6000 and kerf 0 returns exactly two tubes, `[2500, 2500, 1000]` (used
6000) and `[1500, 1500, 1500]` (used 4500), with efficiency
`10500/12000 = 7/8 = 0.875`. -/
theorem C9_tube_plan_round_trip :
    (compute_tube_plan [(2500, 2), (1500, 3), (1000, 1)] 6000 0).num_tubes = 2 ∧
    (compute_tube_plan [(2500, 2), (1500, 3), (1000, 1)] 6000 0).tubes =
      [{ pieces_mm := [2500, 2500, 1000], used_mm := 6000, waste_mm := 0 },
       { pieces_mm := [1500, 1500, 1500], used_mm := 4500, waste_mm := 1500 }] ∧
    (compute_tube_plan [(2500, 2), (1500, 3), (1000, 1)] 6000 0).efficiency = 7/8 := by
  refine ⟨by with_unfolding_all rfl, by with_unfolding_all rfl, by with_unfolding_all rfl⟩

/-- C7 counterexample: `compute_layout` with a non-empty piece list and
`gap = -1 < 0` does **not** fail — it returns a full layout, because
`_pack_ffdh` clamps the gap with `max(0.0, gap)` instead of validating
it. -/
theorem C7_counterexample_no_error :
    compute_layout [(1000, 1000)] 3000 (-1) = .ok c7Layout := by
  with_unfolding_all rfl

/-- C7 (amended): the precondition `gap ≥ 0` is not enforced; the packer
clamps a negative gap to 0 and packing proceeds exactly as with gap 0. -/
theorem C7_amended_gap_clamped (items : List (ℤ × ℤ)) (rollW : ℤ) (g : ℚ)
    (keep : Bool) (hg : g < 0) :
    pack_ffdh items rollW g keep = pack_ffdh items rollW 0 keep := by
  unfold pack_ffdh
  rw [max_eq_left hg.le, max_self]

/-- C7 witness: the clamp theorem applied at a concrete negative gap. -/
theorem C7_witness :
    pack_ffdh [(5, 5)] 100 (-1) true = pack_ffdh [(5, 5)] 100 0 true :=
  C7_amended_gap_clamped [(5, 5)] 100 (-1) true (by norm_num)

/-- C3 counterexample: on the placement list `[c3BadPlacement]` (drop
7000 > 5900) the marker finalisation's minimal-shift branch produces a
rect at `x = -1100 < 0`, refuting `x ≥ 0` for arbitrary placement
lists. -/
theorem C3_counterexample_negative_x :
    build_markers_from_layout [c3BadPlacement] 3000 1 5900 = [c3BadMarker] ∧
    ((c3BadMarker.rects.getD 0
        { item_id := 0, level := 0, x := 0, y := 0, w := 0, h := 0 }).x < 0) := by
  refine ⟨by with_unfolding_all rfl, by with_unfolding_all decide⟩

/-- C6 counterexample: on `c6Input = [(1000,1000), (2000,2000)]` the
placement with `item_id = 0` is the piece `(2000, 2000)` — `item_id`
indexes the internally re-sorted (area-descending) list, not the list
as supplied by the caller, whose index-0 piece is `(1000, 1000)`. -/
theorem C6_counterexample_item_id :
    compute_layout c6Input 3000 0 = .ok c6Layout ∧
    (c6Layout.placements.getD 0 pdefault).item_id = 0 ∧
    (c6Layout.placements.getD 0 pdefault).w = 2000 ∧
    c6Input.getD 0 (0, 0) = (1000, 1000) ∧
    (c6Layout.placements.getD 0 pdefault).w ≠ (((c6Input.getD 0 (0, 0)).1 : ℤ) : ℚ) := by
  refine ⟨by with_unfolding_all rfl, by with_unfolding_all rfl,
    by with_unfolding_all rfl, by with_unfolding_all rfl, by with_unfolding_all decide⟩

set_option maxRecDepth 100000 in
/-- Evaluation of the segmenter on `[c10P1, c10P2]`. -/
theorem c10_eval_A :
    build_markers_from_layout [c10P1, c10P2] 3000 1 5900 = [c10MarkerA] := by
  with_unfolding_all rfl

set_option maxRecDepth 100000 in
/-- Evaluation of the segmenter on `[c10P2, c10P1]`. -/
theorem c10_eval_B :
    build_markers_from_layout [c10P2, c10P1] 3000 1 5900 = [c10MarkerB] := by
  with_unfolding_all rfl

/-- C10 counterexample: `build_markers_from_layout` is **not** invariant
under permutation when two placements share the sort key
`(x, level, item_id)`: swapping `c10P1`/`c10P2` swaps the rect order of
the produced marker. -/
theorem C10_counterexample_duplicate_key :
    ([c10P1, c10P2].Perm [c10P2, c10P1]) ∧
    build_markers_from_layout [c10P1, c10P2] 3000 1 5900 = [c10MarkerA] ∧
    build_markers_from_layout [c10P2, c10P1] 3000 1 5900 = [c10MarkerB] ∧
    [c10MarkerA] ≠ [c10MarkerB] :=
  ⟨List.Perm.swap c10P2 c10P1 [], c10_eval_A, c10_eval_B, by
    simp only [c10MarkerA, c10MarkerB, ne_eq, List.cons.injEq, and_true,
      Marker.mk.injEq, List.cons_ne_nil, MarkerPlacedRect.mk.injEq]
    norm_num⟩

/-! ### Tube planner lemmas (towards C4) -/

/-- Appending one piece to a cut list. -/
theorem calcUsed_concat (kerf : ℤ) (l : List ℤ) (p : ℤ) :
    calcUsed kerf (l ++ [p]) =
      if l = [] then p else calcUsed kerf l + kerf + p := by
  rcases l with _ | ⟨a, t⟩
  · simp [calcUsed]
  · simp only [calcUsed, List.cons_append, List.sum_append, List.sum_cons,
      List.length_cons, List.length_append, List.length_cons, List.length_nil,
      List.sum_nil, reduceIte, List.cons_ne_nil]
    push_cast
    ring

/-- Every surviving piece of `validate_pieces` is positive and fits the
stock. -/
theorem validate_pieces_pos (items : List (ℤ × ℤ)) (stock : ℤ) :
    ∀ p ∈ (validate_pieces items stock).1, 0 < p ∧ p ≤ stock := by
  unfold validate_pieces
  suffices h : ∀ st : List ℤ × List ℤ, (∀ p ∈ st.1, 0 < p ∧ p ≤ stock) →
      ∀ p ∈ (items.foldl (fun (st : List ℤ × List ℤ) it =>
        if it.2 ≤ 0 then st
        else if it.1 ≤ 0 then st
        else if it.1 > stock then (st.1, st.2 ++ [it.1])
        else (st.1 ++ List.replicate it.2.toNat it.1, st.2)) st).1,
        0 < p ∧ p ≤ stock by
    exact h ([], []) (by simp)
  induction items with
  | nil => intro st hst; simpa using hst
  | cons it rest ih =>
      intro st hst
      simp only [List.foldl_cons]
      apply ih
      split
      · exact hst
      · split
        · exact hst
        · split
          · exact hst
          · rename_i h1 h2 h3
            intro p hp
            rcases List.mem_append.mp hp with hp | hp
            · exact hst p hp
            · rcases List.eq_of_mem_replicate hp with rfl
              exact ⟨by omega, by omega⟩

/-- The accumulator invariant of the best-fit scan is preserved by one
step. -/
theorem bfdStepBest_spec (stock kerf p : ℤ) (full : List BTube) (i : ℕ)
    (t : BTube) (best : Option (ℕ × ℤ)) (hfull : full[i]? = some t)
    (hbest : ∀ j r, best = some (j, r) → ∃ u, full[j]? = some u ∧
      r = stock - u.used ∧ bfdNeeded kerf p u ≤ r) :
    ∀ j r, bfdStepBest stock kerf p i t best = some (j, r) →
      ∃ u, full[j]? = some u ∧ r = stock - u.used ∧
        bfdNeeded kerf p u ≤ r := by
  intro j r hj
  unfold bfdStepBest at hj
  split at hj
  · rename_i hcond
    injection hj with hj'
    injection hj' with h1 h2
    subst h1; subst h2
    refine ⟨t, hfull, rfl, ?_⟩
    simp only [Bool.and_eq_true, decide_eq_true_eq] at hcond
    exact hcond.1
  · exact hbest j r hj

/-- Specification of the best-fit scan: a returned index points at a
tube of the list whose remaining capacity accommodates the piece. -/
theorem bfdFind_spec (stock kerf p : ℤ) (full : List BTube) :
    ∀ (l : List BTube) (i : ℕ) (best : Option (ℕ × ℤ)),
      (∀ j r, best = some (j, r) → ∃ u, full[j]? = some u ∧
        r = stock - u.used ∧ bfdNeeded kerf p u ≤ r) →
      (∀ k : ℕ, l[k]? = full[i + k]?) →
      ∀ j r, bfdFind stock kerf p l i best = some (j, r) →
        ∃ u, full[j]? = some u ∧ r = stock - u.used ∧
          bfdNeeded kerf p u ≤ r := by
  intro l
  induction l with
  | nil => intro i best hbest _ j r hj; exact hbest j r hj
  | cons t rest ih =>
      intro i best hbest hsuffix j r hj
      simp only [bfdFind] at hj
      have hfull : full[i]? = some t := by
        have := hsuffix 0
        simpa using this.symm
      refine ih (i + 1) _
        (bfdStepBest_spec stock kerf p full i t best hfull hbest)
        (fun k => by
          have := hsuffix (k + 1)
          simpa [Nat.add_assoc, Nat.add_comm 1 k] using this) j r hj

/-- `modifyAt` with a valid index keeps the other tubes and replaces the
indexed one. -/
theorem mem_modifyAt (ts : List BTube) (i : ℕ) (f : BTube → BTube) :
    ∀ t ∈ modifyAt ts i f, t ∈ ts ∨ ∃ u, ts[i]? = some u ∧ t = f u := by
  intro t ht
  unfold modifyAt at ht
  split at ht
  · rename_i u hu
    rcases List.mem_or_eq_of_mem_set ht with h | h
    · exact .inl h
    · exact .inr ⟨u, hu, h⟩
  · exact .inl ht

/-- The BFD piece loop preserves the tube invariant. -/
theorem packLoop_inv (stock kerf : ℤ) :
    ∀ (ps : List ℤ) (ts : List BTube),
      (∀ p ∈ ps, 0 < p ∧ p ≤ stock) → TubesInv stock kerf ts →
      TubesInv stock kerf (packLoop stock kerf ps ts) := by
  intro ps
  induction ps with
  | nil => intro ts _ hts; simpa [packLoop] using hts
  | cons p rest ih =>
      intro ts hps hts
      have hp := hps p (by simp)
      simp only [packLoop]
      rcases hfind : bfdFind stock kerf p ts 0 none with _ | ⟨i, r⟩
      · -- new tube
        apply ih _ (fun q hq => hps q (by simp [hq]))
        intro t ht
        rcases List.mem_append.mp ht with h | h
        · exact hts t h
        · simp only [List.mem_singleton] at h
          subst h
          exact ⟨by simp, by simp [calcUsed], by simpa using hp.2,
            by intro q hq; simp only [List.mem_singleton] at hq; omega⟩
      · -- add to the best-fit tube
        apply ih _ (fun q hq => hps q (by simp [hq]))
        have hspec := bfdFind_spec stock kerf p ts ts 0 none
          (by intro j r h; cases h) (by intro k; simp) i r hfind
        obtain ⟨u, hu, hr, hfit⟩ := hspec
        intro t ht
        rcases mem_modifyAt ts i _ t ht with h | ⟨u', hu', rfl⟩
        · exact hts t h
        · have heq : u' = u := by rw [hu'] at hu; cases hu; rfl
          subst heq
          have huinv := hts u' (List.getElem?_mem hu')
          obtain ⟨hne, hused, hle, hpos⟩ := huinv
          subst hr
          by_cases hemp : u'.pieces = []
          · exact absurd hemp hne
          · have hadd : bfdAdd u' p kerf =
                { pieces := u'.pieces ++ [p], used := u'.used + kerf + p } := by
              unfold bfdAdd
              simp [hemp]
            rw [hadd]
            unfold bfdNeeded at hfit
            simp only [hemp, reduceIte] at hfit
            refine ⟨by simp, ?_, by dsimp only; omega, ?_⟩
            · dsimp only
              simp only [calcUsed_concat, hemp, reduceIte]
              omega
            · intro q hq
              rcases List.mem_append.mp hq with h | h
              · exact hpos q h
              · simp only [List.mem_singleton] at h; omega

/-- A kerf-inclusive length is non-negative when pieces are positive. -/
theorem calcUsed_nonneg (kerf : ℤ) (hkerf : 0 ≤ kerf) (l : List ℤ)
    (hpos : ∀ p ∈ l, 0 < p) : 0 ≤ calcUsed kerf l := by
  unfold calcUsed
  split
  · exact le_refl 0
  · rename_i hne
    have hsum : 0 ≤ l.sum := List.sum_nonneg (fun p hp => (hpos p hp).le)
    have hlen : 1 ≤ l.length := by
      cases l with
      | nil => exact absurd rfl hne
      | cons a t => simp
    have : 0 ≤ kerf * ((l.length : ℤ) - 1) := by
      apply mul_nonneg hkerf
      omega
    omega

/-- The flattened pieces of `modifyAt _ i (bfdAdd · p kerf)` are a
permutation of the original pieces plus `p`. -/
theorem modifyAt_flatten (p kerf : ℤ) :
    ∀ (ts : List BTube) (i : ℕ) (t : BTube), ts[i]? = some t →
      ((modifyAt ts i (fun u => bfdAdd u p kerf)).map (·.pieces)).flatten.Perm
        ((ts.map (·.pieces)).flatten ++ [p]) := by
  intro ts
  induction ts with
  | nil => intro i t ht; simp at ht
  | cons t0 rest ih =>
      intro i t ht
      cases i with
      | zero =>
          simp only [List.getElem?_cons_zero, Option.some.injEq] at ht
          subst ht
          have hset : modifyAt (t0 :: rest) 0 (fun u => bfdAdd u p kerf) =
              bfdAdd t0 p kerf :: rest := by
            unfold modifyAt
            simp
          rw [hset]
          have hpieces : (bfdAdd t0 p kerf).pieces = t0.pieces ++ [p] := by
            unfold bfdAdd
            split <;> rfl
          simp only [List.map_cons, List.flatten_cons, hpieces]
          have h1 : (t0.pieces ++ [p]) ++ (rest.map (·.pieces)).flatten =
              t0.pieces ++ ([p] ++ (rest.map (·.pieces)).flatten) := by
            simp [List.append_assoc]
          have h2 : (t0.pieces ++ (rest.map (·.pieces)).flatten) ++ [p] =
              t0.pieces ++ ((rest.map (·.pieces)).flatten ++ [p]) := by
            simp [List.append_assoc]
          rw [h1, h2]
          exact List.Perm.append_left _ List.perm_append_comm
      | succ k =>
          simp only [List.getElem?_cons_succ] at ht
          have hset : modifyAt (t0 :: rest) (k + 1) (fun u => bfdAdd u p kerf) =
              t0 :: modifyAt rest k (fun u => bfdAdd u p kerf) := by
            unfold modifyAt
            simp only [List.getElem?_cons_succ, ht, List.set_cons_succ]
          rw [hset]
          simp only [List.map_cons, List.flatten_cons]
          have h2 : (t0.pieces ++ (rest.map (·.pieces)).flatten) ++ [p] =
              t0.pieces ++ ((rest.map (·.pieces)).flatten ++ [p]) := by
            simp [List.append_assoc]
          rw [h2]
          exact List.Perm.append_left _ (ih k t ht)

/-- The flattened pieces after the BFD loop are the starting pieces plus
the queue, in some order. -/
theorem packLoop_flatten (stock kerf : ℤ) :
    ∀ (ps : List ℤ) (ts : List BTube),
      ((packLoop stock kerf ps ts).map (·.pieces)).flatten.Perm
        ((ts.map (·.pieces)).flatten ++ ps) := by
  intro ps
  induction ps with
  | nil => intro ts; simp [packLoop]
  | cons p rest ih =>
      intro ts
      simp only [packLoop]
      rcases hfind : bfdFind stock kerf p ts 0 none with _ | ⟨i, r⟩
      · have h := ih (ts ++ [{ pieces := [p], used := p }])
        refine h.trans ?_
        simp
      · have hspec := bfdFind_spec stock kerf p ts ts 0 none
          (by intro j r h; cases h) (by intro k; simp) i r hfind
        obtain ⟨u, hu, _, _⟩ := hspec
        have h1 := ih (modifyAt ts i (fun t => bfdAdd t p kerf))
        refine h1.trans ?_
        refine (List.Perm.append_right rest (modifyAt_flatten p kerf ts i u hu)).trans ?_
        simp

/-- Specification of the inner pair scan. -/
theorem scanJ_spec (stock kerf : ℤ) (A : List ℤ) :
    ∀ (l : List (List ℤ)) (dj : ℕ), scanJ stock kerf A l = some dj →
      ∃ B, l[dj]? = some B ∧ movePred stock kerf A B = true := by
  intro l
  induction l with
  | nil => intro dj h; simp [scanJ] at h
  | cons B rest ih =>
      intro dj h
      simp only [scanJ] at h
      split at h
      · rename_i hpred
        cases h
        exact ⟨B, by simp, hpred⟩
      · rcases hsub : scanJ stock kerf A rest with _ | dj'
        · rw [hsub] at h; exact absurd h (by simp)
        · rw [hsub] at h
          simp only [Option.map_some', Option.some.injEq] at h
          subst h
          obtain ⟨B', hB', hp⟩ := ih dj' hsub
          exact ⟨B', by simpa using hB', hp⟩

/-- Specification of the outer pair scan: the returned indices are an
ordered pair whose tubes satisfy the move predicate. -/
theorem scanI_spec (stock kerf : ℤ) :
    ∀ (ts : List (List ℤ)) (i j : ℕ), scanI stock kerf ts = some (i, j) →
      i < j ∧ ∃ A B, ts[i]? = some A ∧ ts[j]? = some B ∧
        movePred stock kerf A B = true := by
  intro ts
  induction ts with
  | nil => intro i j h; simp [scanI] at h
  | cons A rest ih =>
      intro i j h
      simp only [scanI] at h
      rcases hJ : scanJ stock kerf A rest with _ | dj
      · rw [hJ] at h
        rcases hI : scanI stock kerf rest with _ | ⟨i', j'⟩
        · rw [hI] at h; exact absurd h (by simp)
        · rw [hI] at h
          simp only [Option.map_some', Option.some.injEq, Prod.mk.injEq] at h
          obtain ⟨rfl, rfl⟩ := h
          obtain ⟨hij, A', B', hA', hB', hp⟩ := ih i' j' hI
          exact ⟨by omega, A', B', by simpa using hA', by simpa using hB', hp⟩
      · rw [hJ] at h
        simp only [Option.some.injEq, Prod.mk.injEq] at h
        obtain ⟨rfl, rfl⟩ := h
        obtain ⟨B, hB, hp⟩ := scanJ_spec stock kerf A rest dj hJ
        exact ⟨by omega, A, B, by simp, by simpa using hB, hp⟩

/-- Setting index `j` to `B ++ [a]` where `B` sat appends `a` to the
flattened pieces, up to permutation. -/
theorem set_append_flatten :
    ∀ (l : List (List ℤ)) (j : ℕ) (B : List ℤ), l[j]? = some B →
      ∀ a, ((l.set j (B ++ [a])).flatten).Perm (l.flatten ++ [a]) := by
  intro l
  induction l with
  | nil => intro j B hj; simp at hj
  | cons t rest ih =>
      intro j B hj a
      cases j with
      | zero =>
          simp only [List.getElem?_cons_zero, Option.some.injEq] at hj
          subst hj
          simp only [List.set_cons_zero, List.flatten_cons]
          have h1 : (t ++ [a]) ++ rest.flatten = t ++ ([a] ++ rest.flatten) := by
            simp [List.append_assoc]
          have h2 : (t ++ rest.flatten) ++ [a] = t ++ (rest.flatten ++ [a]) := by
            simp [List.append_assoc]
          rw [h1, h2]
          exact List.Perm.append_left _ List.perm_append_comm
      | succ k =>
          simp only [List.getElem?_cons_succ] at hj
          simp only [List.set_cons_succ, List.flatten_cons]
          have h2 : (t ++ rest.flatten) ++ [a] = t ++ (rest.flatten ++ [a]) := by
            simp [List.append_assoc]
          rw [h2]
          exact List.Perm.append_left _ (ih k B hj a)

/-- The explicit double-`set` of an accepted move preserves the
flattened pieces up to permutation. -/
theorem setset_flatten :
    ∀ (ts : List (List ℤ)) (i j : ℕ) (a : ℤ) (B : List ℤ), i < j →
      ts[i]? = some [a] → ts[j]? = some B →
      (((ts.set i []).set j (B ++ [a])).flatten).Perm ts.flatten := by
  intro ts
  induction ts with
  | nil => intro i j a B _ hi _; simp at hi
  | cons t rest ih =>
      intro i j a B hij hi hj
      cases i with
      | zero =>
          simp only [List.getElem?_cons_zero, Option.some.injEq] at hi
          subst hi
          obtain ⟨k, rfl⟩ : ∃ k, j = k + 1 := ⟨j - 1, by omega⟩
          simp only [List.getElem?_cons_succ] at hj
          simp only [List.set_cons_zero, List.set_cons_succ, List.flatten_cons,
            List.nil_append, List.singleton_append]
          refine (set_append_flatten rest k B hj a).trans ?_
          exact List.perm_append_comm.trans (by simp)
      | succ i' =>
          obtain ⟨k, rfl⟩ : ∃ k, j = k + 1 := ⟨j - 1, by omega⟩
          simp only [List.getElem?_cons_succ] at hi hj
          simp only [List.set_cons_succ, List.flatten_cons]
          exact List.Perm.append_left _ (ih i' k a B (by omega) hi hj)

/-- Pruning empty tubes does not change the flattened pieces. -/
theorem flatten_filter_nonempty (l : List (List ℤ)) :
    (l.filter (fun t => !t.isEmpty)).flatten = l.flatten := by
  induction l with
  | nil => rfl
  | cons t rest ih =>
      by_cases ht : t = []
      · subst ht
        simpa using ih
      · simp only [List.filter_cons]
        have hne : (!t.isEmpty) = true := by
          simp [List.isEmpty_iff, ht]
        rw [hne]
        simp [ih]

/-- One improvement pass preserves the flattened pieces up to
permutation. -/
theorem improvePass_flatten (stock kerf : ℤ) (ts : List (List ℤ)) :
    ((improvePass stock kerf ts).1.flatten).Perm ts.flatten := by
  unfold improvePass
  rcases h : scanI stock kerf ts with _ | ⟨i, j⟩
  · simp only
    rw [flatten_filter_nonempty]
  · obtain ⟨hij, A, B, hA, hB, hp⟩ := scanI_spec stock kerf ts i j h
    simp only
    rw [flatten_filter_nonempty]
    unfold movePred at hp
    simp only [Bool.and_eq_true, beq_iff_eq, Nat.beq_eq_true_eq,
      Bool.not_eq_true', beq_eq_false_iff_ne, ne_eq, decide_eq_true_eq] at hp
    obtain ⟨⟨hlen, _⟩, _⟩ := hp
    obtain ⟨a, rfl⟩ := List.length_eq_one.mp hlen
    have hshape : applyMove ts i j = (ts.set i []).set j (B ++ [a]) := by
      unfold applyMove
      rw [hA, hB]
      rfl
    rw [hshape]
    exact setset_flatten ts i j a B hij hA hB

/-- One improvement pass preserves the piece-list invariant. -/
theorem improvePass_inv (stock kerf : ℤ) (hstock : 0 ≤ stock)
    (ts : List (List ℤ)) (h : PieceListsInv stock kerf ts) :
    PieceListsInv stock kerf (improvePass stock kerf ts).1 := by
  unfold improvePass
  rcases hscan : scanI stock kerf ts with _ | ⟨i, j⟩
  · intro t ht
    exact h t (List.mem_of_mem_filter ht)
  · obtain ⟨hij, A, B, hA, hB, hp⟩ := scanI_spec stock kerf ts i j hscan
    unfold movePred at hp
    simp only [Bool.and_eq_true, beq_iff_eq, Nat.beq_eq_true_eq,
      Bool.not_eq_true', beq_eq_false_iff_ne, ne_eq, decide_eq_true_eq] at hp
    obtain ⟨⟨hlen, _⟩, hcalc⟩ := hp
    obtain ⟨a, rfl⟩ := List.length_eq_one.mp hlen
    have hshape : applyMove ts i j = (ts.set i []).set j (B ++ [a]) := by
      unfold applyMove
      rw [hA, hB]
      rfl
    intro t ht
    simp only at ht
    have ht' := List.mem_of_mem_filter ht
    rw [hshape] at ht'
    rcases List.mem_or_eq_of_mem_set ht' with ht'' | rfl
    · rcases List.mem_or_eq_of_mem_set ht'' with ht3 | rfl
      · exact h t ht3
      · exact ⟨by simpa [calcUsed] using hstock, by simp⟩
    · refine ⟨hcalc, ?_⟩
      intro q hq
      rcases List.mem_append.mp hq with hq | hq
      · exact (h B (List.getElem?_mem hB)).2 q hq
      · simp only [List.mem_singleton] at hq
        subst hq
        exact (h [q] (List.getElem?_mem hA)).2 q (by simp)

/-- `improve_pair_swaps` keeps every tube valid and preserves the
multiset of pieces. -/
theorem improve_pair_swaps_props (tubes : List TubeCut) (stock kerf : ℤ)
    (hstock : 0 ≤ stock)
    (hinv : ∀ t ∈ tubes, t.pieces_mm ≠ [] ∧
      t.used_mm = calcUsed kerf t.pieces_mm ∧ t.used_mm ≤ stock ∧
      (∀ p ∈ t.pieces_mm, 0 < p) ∧ t.waste_mm = stock - t.used_mm) :
    (∀ t ∈ improve_pair_swaps tubes stock kerf, t.pieces_mm ≠ [] ∧
      t.used_mm = calcUsed kerf t.pieces_mm ∧ t.used_mm ≤ stock ∧
      (∀ p ∈ t.pieces_mm, 0 < p) ∧ t.waste_mm = stock - t.used_mm) ∧
    (((improve_pair_swaps tubes stock kerf).map (·.pieces_mm)).flatten).Perm
      ((tubes.map (·.pieces_mm)).flatten) := by
  unfold improve_pair_swaps
  split
  · exact ⟨hinv, List.Perm.refl _⟩
  · have hinv0 : PieceListsInv stock kerf (tubes.map (·.pieces_mm)) := by
      intro t ht
      obtain ⟨u, hu, rfl⟩ := List.mem_map.mp ht
      obtain ⟨_, hused, hle, hpos, _⟩ := hinv u hu
      exact ⟨hused ▸ hle, hpos⟩
    have hinv1 := improvePass_inv stock kerf hstock _ hinv0
    have hflat1 := improvePass_flatten stock kerf (tubes.map (·.pieces_mm))
    set t1 := (improvePass stock kerf (tubes.map (·.pieces_mm))).1 with ht1
    set t2 := if (improvePass stock kerf (tubes.map (·.pieces_mm))).2 then
        (improvePass stock kerf t1).1 else t1 with ht2
    have hinv2 : PieceListsInv stock kerf t2 := by
      rw [ht2]
      split
      · exact improvePass_inv stock kerf hstock _ hinv1
      · exact hinv1
    have hflat2 : t2.flatten.Perm ((tubes.map (·.pieces_mm)).flatten) := by
      rw [ht2]
      split
      · exact (improvePass_flatten stock kerf t1).trans hflat1
      · exact hflat1
    constructor
    · intro t ht
      obtain ⟨pieces, hmem, rfl⟩ := List.mem_map.mp ht
      have hne : pieces ≠ [] := by
        have := List.of_mem_filter hmem
        simpa using this
      have hmem' := List.mem_of_mem_filter hmem
      obtain ⟨hle, hpos⟩ := hinv2 pieces hmem'
      exact ⟨by simpa using hne, rfl, hle, hpos, rfl⟩
    · have hmapflat :
          (((t2.filter (fun t => !t.isEmpty)).map (fun pieces =>
            ({ pieces_mm := pieces, used_mm := calcUsed kerf pieces,
               waste_mm := stock - calcUsed kerf pieces } : TubeCut))).map
            (·.pieces_mm)) = t2.filter (fun t => !t.isEmpty) := by
        rw [List.map_map]
        exact List.map_id _
      rw [hmapflat, flatten_filter_nonempty]
      exact hflat2

/-- `validate_pieces` is the flat expansion described by the spec:
entries with non-positive quantity or width are skipped, over-long
widths are diverted to the infeasible list, survivors are replicated by
quantity. -/
theorem validate_pieces_eq_flatMap (items : List (ℤ × ℤ)) (stock : ℤ) :
    (validate_pieces items stock).1 =
      items.flatMap (fun it =>
        if it.2 ≤ 0 ∨ it.1 ≤ 0 ∨ it.1 > stock then []
        else List.replicate it.2.toNat it.1) := by
  unfold validate_pieces
  suffices h : ∀ st : List ℤ × List ℤ,
      (items.foldl (fun (st : List ℤ × List ℤ) it =>
        if it.2 ≤ 0 then st
        else if it.1 ≤ 0 then st
        else if it.1 > stock then (st.1, st.2 ++ [it.1])
        else (st.1 ++ List.replicate it.2.toNat it.1, st.2)) st).1 =
      st.1 ++ items.flatMap (fun it =>
        if it.2 ≤ 0 ∨ it.1 ≤ 0 ∨ it.1 > stock then []
        else List.replicate it.2.toNat it.1) by
    simpa using h ([], [])
  induction items with
  | nil => intro st; simp
  | cons it rest ih =>
      intro st
      simp only [List.foldl_cons, List.flatMap_cons]
      by_cases h2 : it.2 ≤ 0
      · simp only [h2, reduceIte]
        rw [ih st]
        simp [h2]
      · by_cases h1 : it.1 ≤ 0
        · simp only [h2, h1, reduceIte]
          rw [ih st]
          simp [h1, h2]
        · by_cases h3 : it.1 > stock
          · simp only [h2, h1, h3, reduceIte]
            rw [ih (st.1, st.2 ++ [it.1])]
            simp [h1, h2, h3]
          · simp only [h2, h1, h3, reduceIte]
            rw [ih (st.1 ++ List.replicate it.2.toNat it.1, st.2)]
            simp [h1, h2, h3, List.append_assoc]

/-- Used plus waste sums to tube count times stock when each tube's
waste is the stock complement. -/
theorem used_plus_waste (stock : ℤ) :
    ∀ l : List TubeCut, (∀ t ∈ l, t.waste_mm = stock - t.used_mm) →
      (l.map (·.used_mm)).sum + (l.map (·.waste_mm)).sum =
        (l.length : ℤ) * stock := by
  intro l
  induction l with
  | nil => intro _; simp
  | cons t rest ih =>
      intro h
      have ht := h t (by simp)
      have := ih (fun u hu => h u (by simp [hu]))
      simp only [List.map_cons, List.sum_cons, List.length_cons]
      push_cast
      linarith

/-- Every tube produced by `pack_bfd` on validated pieces is valid. -/
theorem pack_bfd_inv (pieces : List ℤ) (stock kerf : ℤ)
    (hpieces : ∀ p ∈ pieces, 0 < p ∧ p ≤ stock) :
    ∀ t ∈ pack_bfd pieces stock kerf, t.pieces_mm ≠ [] ∧
      t.used_mm = calcUsed kerf t.pieces_mm ∧ t.used_mm ≤ stock ∧
      (∀ p ∈ t.pieces_mm, 0 < p) ∧ t.waste_mm = stock - t.used_mm := by
  intro t ht
  unfold pack_bfd at ht
  obtain ⟨u, hu, rfl⟩ := List.mem_map.mp ht
  have hinv := packLoop_inv stock kerf pieces [] hpieces (by intro t ht; simp at ht) u hu
  obtain ⟨hne, hused, hle, hpos⟩ := hinv
  exact ⟨hne, hused, hle, hpos, rfl⟩

/-- The flattened pieces of `pack_bfd`'s tubes are exactly the input
pieces, up to order. -/
theorem pack_bfd_flatten (pieces : List ℤ) (stock kerf : ℤ) :
    (((pack_bfd pieces stock kerf).map (·.pieces_mm)).flatten).Perm pieces := by
  unfold pack_bfd
  rw [List.map_map]
  have : ((fun t : TubeCut => t.pieces_mm) ∘ fun t : BTube =>
      ({ pieces_mm := t.pieces, used_mm := t.used,
         waste_mm := stock - t.used } : TubeCut)) = fun t : BTube => t.pieces := rfl
  rw [this]
  have h := packLoop_flatten stock kerf pieces []
  simpa using h

/-- C4: for every item list, stock length > 0 and kerf ≥ 0, the plan
returned by `compute_tube_plan` satisfies: every tube is non-empty with
`used = Σ pieces + kerf·(|pieces|−1)`, `0 ≤ used ≤ stock_length` and
`waste = stock_length − used`; `total_used + total_waste =
num_tubes·stock_length`; and the multiset of pieces across all tubes
equals the input expanded by quantity (entries with `qty ≤ 0` or
`width ≤ 0` skipped) minus the infeasible (over-long) pieces. -/
theorem C4_tube_plan_invariants (items : List (ℤ × ℤ)) (stock kerf : ℤ)
    (hstock : 0 < stock) (hkerf : 0 ≤ kerf) :
    (∀ t ∈ (compute_tube_plan items stock kerf).tubes,
        t.pieces_mm ≠ [] ∧
        t.used_mm = t.pieces_mm.sum + kerf * ((t.pieces_mm.length : ℤ) - 1) ∧
        0 ≤ t.used_mm ∧ t.used_mm ≤ stock ∧
        t.waste_mm = stock - t.used_mm) ∧
    (compute_tube_plan items stock kerf).total_used_mm +
        (compute_tube_plan items stock kerf).total_waste_mm =
      ((compute_tube_plan items stock kerf).num_tubes : ℤ) * stock ∧
    (((compute_tube_plan items stock kerf).tubes.map (·.pieces_mm)).flatten).Perm
      (validate_pieces items stock).1 ∧
    (validate_pieces items stock).1 =
      items.flatMap (fun it =>
        if it.2 ≤ 0 ∨ it.1 ≤ 0 ∨ it.1 > stock then []
        else List.replicate it.2.toNat it.1) := by
  have hflat := validate_pieces_eq_flatMap items stock
  by_cases hemp : (validate_pieces items stock).1 = []
  · refine ⟨?_, ?_, ?_, hflat⟩ <;> simp [compute_tube_plan, hemp]
  · have htubes_eq : (compute_tube_plan items stock kerf).tubes =
        improve_pair_swaps
          (pack_bfd ((validate_pieces items stock).1.mergeSort
            (fun a b => decide (b ≤ a))) stock kerf) stock kerf := by
      simp [compute_tube_plan, hemp]
    have hused_eq : (compute_tube_plan items stock kerf).total_used_mm =
        (((compute_tube_plan items stock kerf).tubes).map (·.used_mm)).sum := by
      rw [htubes_eq]
      simp [compute_tube_plan, hemp]
    have hwaste_eq : (compute_tube_plan items stock kerf).total_waste_mm =
        (((compute_tube_plan items stock kerf).tubes).map (·.waste_mm)).sum := by
      rw [htubes_eq]
      simp [compute_tube_plan, hemp]
    have hnum_eq : (compute_tube_plan items stock kerf).num_tubes =
        (compute_tube_plan items stock kerf).tubes.length := by
      rw [htubes_eq]
      simp [compute_tube_plan, hemp]
    have hpos : ∀ p ∈ (validate_pieces items stock).1.mergeSort
        (fun a b => decide (b ≤ a)), 0 < p ∧ p ≤ stock := by
      intro p hp
      exact validate_pieces_pos items stock p (List.mem_mergeSort.mp hp)
    have hpack := pack_bfd_inv _ stock kerf hpos
    have himp := improve_pair_swaps_props _ stock kerf hstock.le hpack
    rw [htubes_eq] at *
    refine ⟨?_, ?_, ?_, hflat⟩
    · intro t ht
      obtain ⟨hne', hused, hle, hpos', hwaste⟩ := himp.1 t ht
      refine ⟨hne', ?_, ?_, hle, hwaste⟩
      · rw [hused]
        unfold calcUsed
        simp [hne']
      · rw [hused]
        exact calcUsed_nonneg kerf hkerf _ hpos'
    · rw [hused_eq, hwaste_eq, hnum_eq]
      exact used_plus_waste stock _ (fun t ht => (himp.1 t ht).2.2.2.2)
    · refine himp.2.trans ?_
      exact (pack_bfd_flatten _ stock kerf).trans
        (List.mergeSort_perm (validate_pieces items stock).1 _)

/-- C4 witness: the theorem applied at the concrete plan
`items = [(100, 2)], stock = 1000, kerf = 5` (totals conjunct). -/
theorem C4_witness :
    (compute_tube_plan [(100, 2)] 1000 5).total_used_mm +
        (compute_tube_plan [(100, 2)] 1000 5).total_waste_mm =
      ((compute_tube_plan [(100, 2)] 1000 5).num_tubes : ℤ) * 1000 :=
  (C4_tube_plan_invariants [(100, 2)] 1000 5 (by norm_num) (by norm_num)).2.1

/-! ### Efficiency aggregator lemmas (towards C8) -/

/-- Eliminating a successful `Except` bind. -/
theorem except_bind_ok {ε α β : Type _} (e : Except ε α) (f : α → Except ε β)
    (b : β) (h : (e >>= f) = .ok b) : ∃ a, e = .ok a ∧ f a = .ok b := by
  cases e with
  | error msg => simp [Bind.bind, Except.bind] at h
  | ok a => exact ⟨a, rfl, by simpa [Bind.bind, Except.bind] using h⟩

/-- Every output of `mapExcept` comes from some input element. -/
theorem mapExcept_mem {α β : Type _} (f : α → Except String β) :
    ∀ (l : List α) (ys : List β), mapExcept f l = .ok ys →
      ∀ y ∈ ys, ∃ x ∈ l, f x = .ok y := by
  intro l
  induction l with
  | nil =>
      intro ys h y hy
      simp only [mapExcept] at h
      cases h
      simp at hy
  | cons a rest ih =>
      intro ys h y hy
      simp only [mapExcept] at h
      obtain ⟨b, hb, h2⟩ := except_bind_ok _ _ _ h
      obtain ⟨bs, hbs, h3⟩ := except_bind_ok _ _ _ h2
      simp only [pure, Except.pure, Except.ok.injEq] at h3
      subst h3
      rcases List.mem_cons.mp hy with rfl | hy'
      · exact ⟨a, by simp, hb⟩
      · obtain ⟨x, hx, hfx⟩ := ih bs hbs y hy'
        exact ⟨x, by simp [hx], hfx⟩

/-- A successful `processLine` reports the line's own roll width. -/
theorem processLine_roll (spec : LineSpec) (lr : LineResult)
    (h : processLine spec = .ok lr) : lr.roll_width_mm = spec.roll_width_mm := by
  unfold processLine at h
  split at h
  · split at h <;> simp [Bind.bind, Except.bind, pure, Except.pure] at h
  · split at h
    · simp [Bind.bind, Except.bind, pure, Except.pure] at h
    · rcases hcl : compute_layout spec.items spec.roll_width_mm spec.gap_mm
        with msg | layout
      · rw [hcl] at h
        simp [Bind.bind, Except.bind, pure, Except.pure, Functor.map,
          Except.map] at h
      · rw [hcl] at h
        simp only [Bind.bind, Except.bind, pure, Except.pure, Functor.map,
          Except.map, Except.ok.injEq] at h
        subst h
        rfl

/-- Every line result of `compute_layout_per_line` carries the roll
width of its own line spec. -/
theorem compute_layout_per_line_roll (lines : List LineSpec)
    (out : PerLineLayout) (h : compute_layout_per_line lines = .ok out) :
    ∀ lr ∈ out.lines, ∃ e ∈ lines, lr.roll_width_mm = e.roll_width_mm := by
  unfold compute_layout_per_line at h
  obtain ⟨results, hres, h2⟩ := except_bind_ok _ _ _ h
  simp only [pure, Except.pure, Except.ok.injEq] at h2
  subst h2
  intro lr hlr
  simp only at hlr
  obtain ⟨e, he, hfe⟩ := mapExcept_mem processLine lines results hres lr hlr
  exact ⟨e, he, processLine_roll e lr hfe⟩

/-- C8: whenever `candidate_widths` is non-empty, every per-line result
of `compute_efficiency` carries the same roll width, namely
`selectRollWidth` — the minimum candidate `≥` the maximum piece width
over all lines, or the maximum candidate when none fits; in particular
for the line `{w=2300, h=2100, qty=2}` with candidates
`[1900, 2050, 2400, 3000]` the chosen roll width is 2400. -/
theorem C8_candidate_width_selection :
    (∀ (lines : List Line) (cands : List ℤ) (res : List EffResult)
        (tot : EffTotals), cands ≠ [] →
        compute_efficiency lines cands = .ok (res, tot) →
        ∀ r ∈ res, r.roll_width_mm = selectRollWidth lines cands) ∧
    selectRollWidth
      [{ line_id := "1", width_mm := 2300, drop_mm := 2100, qty := 2 }]
      [1900, 2050, 2400, 3000] = 2400 := by
  constructor
  · intro lines cands res tot _ hEq
    by_cases hl : lines = []
    · subst hl
      simp only [compute_efficiency, reduceIte, Except.ok.injEq, Prod.mk.injEq] at hEq
      obtain ⟨rfl, _⟩ := hEq
      intro r hr
      simp at hr
    · simp only [compute_efficiency, hl, reduceIte] at hEq
      obtain ⟨out, hout, h2⟩ := except_bind_ok _ _ _ hEq
      simp only [pure, Except.pure, Except.ok.injEq, Prod.mk.injEq] at h2
      obtain ⟨hres, _⟩ := h2
      intro r hr
      rw [← hres] at hr
      simp only [List.map_map, List.mem_map] at hr
      obtain ⟨lr, hlr, hr_eq⟩ := hr
      have hroll : r.roll_width_mm = lr.roll_width_mm := by
        rw [← hr_eq]
        rfl
      obtain ⟨e, he, heq⟩ := compute_layout_per_line_roll _ out hout lr hlr
      simp only [List.mem_map] at he
      obtain ⟨⟨i, ln⟩, _, he_eq⟩ := he
      rw [hroll, heq, ← he_eq]
  · with_unfolding_all rfl

/-- C8 witness: the selection theorem applied at the concrete call with
candidates `[1900, 2050, 2400, 3000]` and a zero-quantity line of width
2300 (the loop body never runs, so the evaluation stays small). -/
theorem C8_witness :
    c8WitnessResult.roll_width_mm =
      selectRollWidth
        [{ line_id := "1", width_mm := 2300, drop_mm := 2100, qty := 0 }]
        [1900, 2050, 2400, 3000] :=
  C8_candidate_width_selection.1
    [{ line_id := "1", width_mm := 2300, drop_mm := 2100, qty := 0 }]
    [1900, 2050, 2400, 3000] [c8WitnessResult] c8WitnessTotals
    (by simp) (by with_unfolding_all rfl) c8WitnessResult (by simp)

/-! ### Packer lemmas (towards C6) -/

/-- Invariant preservation through a successful `foldlM` over `Except`. -/
theorem foldlM_except_inv {σ α : Type _} (f : σ → α → Except String σ)
    (P : σ → Prop) :
    ∀ (l : List α),
      (∀ s a, a ∈ l → P s → ∀ s', f s a = .ok s' → P s') →
      ∀ (init res : σ), P init → l.foldlM f init = .ok res → P res := by
  intro l
  induction l with
  | nil =>
      intro _ init res hinit h
      simp only [List.foldlM_nil, pure, Except.pure, Except.ok.injEq] at h
      exact h ▸ hinit
  | cons a rest ih =>
      intro hstep init res hinit h
      simp only [List.foldlM_cons] at h
      obtain ⟨s1, hs1, h2⟩ := except_bind_ok _ _ _ h
      exact ih (fun s b hb => hstep s b (by simp [hb])) s1 res
        (hstep init a (by simp) hinit s1 hs1) h2

/-- Each `_pack_ffdh` step only appends placements whose
`(item_id, w, h)` matches the enumerated input. -/
theorem ffdhStep_triples (rollW gap : ℚ) (items : List (ℤ × ℤ))
    (st st' : List Placement × List Shelf) (e : ℕ × (ℤ × ℤ))
    (he : items[e.1]? = some e.2)
    (hst : ∀ p ∈ st.1, (items[p.item_id]?).map
      (fun wh => ((wh.1 : ℚ), (wh.2 : ℚ))) = some (p.w, p.h))
    (h : ffdhStep rollW gap st e = .ok st') :
    ∀ p ∈ st'.1, (items[p.item_id]?).map
      (fun wh => ((wh.1 : ℚ), (wh.2 : ℚ))) = some (p.w, p.h) := by
  rcases hbest : ffdhBest rollW gap (e.2.1 : ℚ) (e.2.2 : ℚ) st.2
    with _ | ⟨lo, s_idx, s⟩ <;>
  · simp only [ffdhStep, hbest] at h
    by_cases hw : e.2.1 ≤ 0 ∨ e.2.2 ≤ 0
    · rw [if_pos hw] at h
      cases h
    · rw [if_neg hw] at h
      simp only [Except.ok.injEq] at h
      subst h
      intro p hp
      simp only at hp
      rcases List.mem_append.mp hp with hp | hp
      · exact hst p hp
      · simp only [List.mem_singleton] at hp
        subst hp
        simp [he]

/-- Every placement returned by `_pack_ffdh` carries the width and drop
of the input item at index `item_id`. -/
theorem pack_ffdh_triples (items : List (ℤ × ℤ)) (rollW : ℤ) (gap : ℚ)
    (keep : Bool) (ps : List Placement) (sh : List Shelf)
    (h : pack_ffdh items rollW gap keep = .ok (ps, sh)) :
    ∀ p ∈ ps, (items[p.item_id]?).map
      (fun wh => ((wh.1 : ℚ), (wh.2 : ℚ))) = some (p.w, p.h) := by
  by_cases hnil : items = []
  · subst hnil
    simp only [pack_ffdh, reduceIte, Except.ok.injEq, Prod.mk.injEq] at h
    obtain ⟨rfl, _⟩ := h
    intro p hp
    simp at hp
  · simp only [pack_ffdh, hnil, reduceIte] at h
    by_cases hmax : (items.map Prod.fst).max?.getD 0 > rollW
    · rw [if_pos hmax] at h
      cases h
    · rw [if_neg hmax] at h
      obtain ⟨st, hst, h2⟩ := except_bind_ok _ _ _ h
      rcases hchk : ffdhCheck (rollW : ℚ) st.1 st.2 with msg | u
      · rw [hchk] at h2
        simp [Bind.bind, Except.bind, Functor.map, Except.map] at h2
      · rw [hchk] at h2
        simp only [Bind.bind, Except.bind, Functor.map, Except.map, pure,
          Except.pure, Except.ok.injEq] at h2
        have h3 : st = (ps, sh) := h2
        have hP := foldlM_except_inv
          (ffdhStep (rollW : ℚ) (max 0 gap))
          (fun st => ∀ p ∈ st.1, (items[p.item_id]?).map
            (fun wh => ((wh.1 : ℚ), (wh.2 : ℚ))) = some (p.w, p.h))
          (if keep then items.enum else items.enum.mergeSort ffdhSortLe)
          (fun s e he hs s' hstep => by
            refine ffdhStep_triples (rollW : ℚ) (max 0 gap) items s s' e ?_ hs hstep
            have he' : e ∈ items.enum := by
              split at he
              · exact he
              · exact List.mem_mergeSort.mp he
            exact List.mem_enum_iff_getElem?.mp he')
          ([], []) st (by intro p hp; simp at hp) hst
        rw [h3] at hP
        exact hP

/-- Replacing the first occurrence by a placement with the same
`(item_id, w, h)` keeps the triple list unchanged. -/
theorem updateFirst_triples (target repl : Placement)
    (h : ptriple repl = ptriple target) :
    ∀ l : List Placement, (updateFirst l target repl).map ptriple =
      l.map ptriple := by
  intro l
  induction l with
  | nil => rfl
  | cons a rest ih =>
      unfold updateFirst
      split
      · rename_i ha
        subst ha
        simp [h]
      · simp [ih]

/-- The intra-shelf cursor walk never changes any `(item_id, w, h)`. -/
theorem leftShiftWalk_triples (gap : ℚ) :
    ∀ (sorted : List Placement) (cursor : ℚ) (idx total : ℕ)
      (acc : List Placement),
      ((leftShiftWalk gap sorted cursor idx total acc).1).map ptriple =
        acc.map ptriple := by
  intro sorted
  induction sorted with
  | nil => intro cursor idx total acc; rfl
  | cons p rest ih =>
      intro cursor idx total acc
      simp only [leftShiftWalk]
      rw [ih]
      split
      · exact updateFirst_triples p { p with y := cursor } rfl acc
      · rfl

/-- The left-shift pass never changes any `(item_id, w, h)`. -/
theorem leftShift_triples (rollW gap : ℚ) (ps : List Placement)
    (shelves : List Shelf) :
    ((leftShift rollW gap ps shelves).1).map ptriple = ps.map ptriple := by
  unfold leftShift
  suffices h : ∀ (lvls : List ℕ) (st : List Placement × List Shelf),
      ((lvls.foldl (fun (st : List Placement × List Shelf) lvl =>
        let plist := ps.filter (fun p => p.level == lvl)
        let sortedP := plist.mergeSort (fun a b => decide (a.y ≤ b.y))
        let walked := leftShiftWalk gap sortedP 0 0 sortedP.length st.1
        (walked.1, setShelfUsed st.2 lvl (min rollW walked.2))) st).1).map ptriple =
      st.1.map ptriple by
    exact h (levelsOf ps) (ps, shelves)
  intro lvls
  induction lvls with
  | nil => intro st; rfl
  | cons lvl rest ih =>
      intro st
      simp only [List.foldl_cons]
      rw [ih]
      exact leftShiftWalk_triples gap _ 0 0 _ st.1

/-- The merge mover walk never changes any `(item_id, w, h)`. -/
theorem mergeMoveWalk_triples (i : ℕ) (x0 gap : ℚ) :
    ∀ (l : List Placement) (sy : ℚ),
      ((mergeMoveWalk i x0 gap l sy).1).map ptriple = l.map ptriple := by
  intro l
  induction l with
  | nil => intro sy; rfl
  | cons p rest ih =>
      intro sy
      simp only [mergeMoveWalk]
      split
      · simp [ih]
        rfl
      · simp [ih]

/-- `setShelfUsed` keeps the shelf count. -/
theorem setShelfUsed_length (sh : List Shelf) (l : ℕ) (u : ℚ) :
    (setShelfUsed sh l u).length = sh.length := by
  unfold setShelfUsed
  split <;> simp

set_option maxHeartbeats 1000000 in
/-- The merge loop never changes any `(item_id, w, h)` (strong induction
on the remaining shelf count). -/
theorem mergeLoop_triples_aux (rollW gap : ℚ) :
    ∀ (n i : ℕ) (shelves : List Shelf) (ps : List Placement),
      shelves.length - i ≤ n →
      ((mergeLoop rollW gap i shelves ps).2).map ptriple = ps.map ptriple := by
  intro n
  induction n with
  | zero =>
      intro i shelves ps hn
      rw [mergeLoop.eq_def]
      have hlt : ¬ (i + 1 < shelves.length) := by omega
      rw [dif_neg hlt]
  | succ n ih =>
      intro i shelves ps hn
      rw [mergeLoop.eq_def]
      split
      case isFalse => rfl
      case isTrue hlt =>
        dsimp only
        split
        case isFalse hheights => exact ih (i + 1) shelves ps (by omega)
        case isTrue hheights =>
          split <;>
            [skip; skip] <;>
          · split
            · refine (ih i _ _ ?_).trans ?_
              · have hb : (shelves.eraseIdx (i + 1)).length = shelves.length - 1 := by
                  rw [List.length_eraseIdx]
                  simp [hlt]
                rw [setShelfUsed_length]
                simp only [List.length_map, List.enum_length, hb]
                omega
              · rw [List.map_map]
                show ((mergeMoveWalk i shelves[i].x0 gap ps _).1).map ptriple =
                  ps.map ptriple
                exact mergeMoveWalk_triples i shelves[i].x0 gap ps _
            · exact ih (i + 1) shelves ps (by omega)

/-- The merge loop never changes any `(item_id, w, h)`. -/
theorem mergeLoop_triples (rollW gap : ℚ) (i : ℕ) (shelves : List Shelf)
    (ps : List Placement) :
    ((mergeLoop rollW gap i shelves ps).2).map ptriple = ps.map ptriple :=
  mergeLoop_triples_aux rollW gap shelves.length i shelves ps (by omega)

/-- Compaction never changes any `(item_id, w, h)`. -/
theorem compact_layout_triples (ps : List Placement) (shelves : List Shelf)
    (rollW : ℤ) (gapY : ℚ) :
    ((compact_layout ps shelves rollW gapY).1).map ptriple = ps.map ptriple := by
  unfold compact_layout
  split
  · rfl
  · dsimp only
    rw [mergeLoop_triples, leftShift_triples]

/-- C6 (amended): `item_id` indexes the internally re-sorted
(area-descending) piece list, not the caller-supplied one: whenever
`compute_layout` succeeds, each placement's `(w, h)` is exactly the
piece of `sortBlinds blinds` at index `item_id`, cast to ℚ. -/
theorem C6_amended_item_id_sorted (blinds : List (ℤ × ℤ)) (rollW : ℤ)
    (gap : ℚ) (layout : Layout)
    (h : compute_layout blinds rollW gap = .ok layout) :
    ∀ p ∈ layout.placements,
      ((sortBlinds blinds)[p.item_id]?).map
        (fun wh => ((wh.1 : ℚ), (wh.2 : ℚ))) = some (p.w, p.h) := by
  rcases hfull : compute_layout_full blinds rollW gap with e | ⟨lay, sh⟩
  · rw [compute_layout, hfull] at h
    simp [Functor.map, Except.map] at h
  · rw [compute_layout, hfull] at h
    simp only [Functor.map, Except.map, Except.ok.injEq] at h
    subst h
    simp only [compute_layout_full] at hfull
    by_cases hnil : sortBlinds blinds = []
    · rw [if_pos hnil] at hfull
      simp only [Except.ok.injEq, Prod.mk.injEq] at hfull
      obtain ⟨hlay, -⟩ := hfull
      rw [← hlay]
      intro p hp
      simp at hp
    · rw [if_neg hnil] at hfull
      by_cases hlen : (sortBlinds blinds).length > 100000
      · rw [if_pos hlen] at hfull
        cases hfull
      · rw [if_neg hlen] at hfull
        obtain ⟨u, hchk, h2⟩ := except_bind_ok _ _ _ hfull
        obtain ⟨packed, hpack, h3⟩ := except_bind_ok _ _ _ h2
        obtain ⟨ps0, sh0⟩ := packed
        simp only [pure, Except.pure, Except.ok.injEq, Prod.mk.injEq] at h3
        obtain ⟨hlay, -⟩ := h3
        rw [← hlay]
        intro p hp
        simp only at hp
        have hmem : ptriple p ∈
            ((compact_layout ps0 sh0 rollW gap).1).map ptriple :=
          List.mem_map_of_mem _ hp
        rw [compact_layout_triples] at hmem
        obtain ⟨q, hq, hqp⟩ := List.mem_map.mp hmem
        have hprop :=
          pack_ffdh_triples (sortBlinds blinds) rollW gap true ps0 sh0 hpack q hq
        simp only [ptriple, Prod.mk.injEq] at hqp
        obtain ⟨h1, h2w, h3h⟩ := hqp
        rw [h1, h2w, h3h] at hprop
        exact hprop

set_option maxRecDepth 100000 in
/-- Witness for C6 (amended): at the counterexample input the first
placement's `(w, h)` matches the sorted list at its `item_id`. -/
theorem C6_amended_witness :
    ((sortBlinds c6Input)[(c6Layout.placements.getD 0 pdefault).item_id]?).map
      (fun wh => ((wh.1 : ℚ), (wh.2 : ℚ))) =
      some ((c6Layout.placements.getD 0 pdefault).w,
            (c6Layout.placements.getD 0 pdefault).h) :=
  C6_amended_item_id_sorted c6Input 3000 0 c6Layout
    (by with_unfolding_all rfl)
    (c6Layout.placements.getD 0 pdefault)
    (by with_unfolding_all decide)

/-- `markerSortLe` is the lexicographic order on `markerKey`. -/
theorem markerSortLe_iff (a b : Placement) :
    markerSortLe a b = true ↔ markerKey a ≤ markerKey b := by
  simp [markerSortLe, markerKey]

/-- Two sorted permutations of each other with duplicate-free keys are equal. -/
theorem perm_sorted_nodupkeys_eq {α K : Type _} [LinearOrder K] (key : α → K) :
    ∀ (l1 l2 : List α), l1.Perm l2 →
      l1.Pairwise (fun a b => key a ≤ key b) →
      l2.Pairwise (fun a b => key a ≤ key b) →
      (l1.map key).Nodup → l1 = l2 := by
  intro l1
  induction l1 with
  | nil =>
      intro l2 hp _ _ _
      exact hp.nil_eq
  | cons a t1 ih =>
      intro l2 hp hs1 hs2 hnd
      cases l2 with
      | nil => exact absurd hp.symm.nil_eq (by simp)
      | cons b t2 =>
          have hab : a = b := by
            by_contra hne
            have hb1 : b ∈ a :: t1 := hp.mem_iff.mpr (List.mem_cons_self b t2)
            have ha2 : a ∈ b :: t2 := hp.mem_iff.mp (List.mem_cons_self a t1)
            have hbt1 : b ∈ t1 := by
              rcases List.mem_cons.mp hb1 with h | h
              · exact absurd h.symm hne
              · exact h
            have hat2 : a ∈ t2 := by
              rcases List.mem_cons.mp ha2 with h | h
              · exact absurd h hne
              · exact h
            have h1 : key a ≤ key b := (List.pairwise_cons.mp hs1).1 b hbt1
            have h2 : key b ≤ key a := (List.pairwise_cons.mp hs2).1 a hat2
            have hk : key a = key b := le_antisymm h1 h2
            simp only [List.map_cons, List.nodup_cons] at hnd
            exact hnd.1 (hk ▸ List.mem_map_of_mem key hbt1)
          subst hab
          have ht : t1.Perm t2 := hp.cons_inv
          have heq := ih t2 ht (List.pairwise_cons.mp hs1).2
            (List.pairwise_cons.mp hs2).2
            (by simp only [List.map_cons, List.nodup_cons] at hnd; exact hnd.2)
          rw [heq]

/-- `markerSortLe` is transitive. -/
theorem markerSortLe_trans (a b c : Placement) (h1 : markerSortLe a b = true)
    (h2 : markerSortLe b c = true) : markerSortLe a c = true := by
  rw [markerSortLe_iff] at *
  exact le_trans h1 h2

/-- `markerSortLe` is total. -/
theorem markerSortLe_total (a b : Placement) :
    (markerSortLe a b || markerSortLe b a) = true := by
  rcases le_total (markerKey a) (markerKey b) with h | h
  · simp [(markerSortLe_iff a b).mpr h]
  · simp [(markerSortLe_iff b a).mpr h]

/-- Sorting two permutations of each other by `markerSortLe` gives the same list when the sort keys are duplicate-free. -/
theorem mergeSort_markerKey_eq (l1 l2 : List Placement) (hp : l1.Perm l2)
    (hnd : (l1.map markerKey).Nodup) :
    l1.mergeSort markerSortLe = l2.mergeSort markerSortLe := by
  apply perm_sorted_nodupkeys_eq markerKey
  · exact ((l1.mergeSort_perm markerSortLe).trans hp).trans
      (l2.mergeSort_perm markerSortLe).symm
  · exact (List.sorted_mergeSort markerSortLe_trans markerSortLe_total l1).imp
      (fun h => (markerSortLe_iff _ _).mp h)
  · exact (List.sorted_mergeSort markerSortLe_trans markerSortLe_total l2).imp
      (fun h => (markerSortLe_iff _ _).mp h)
  · exact (((l1.mergeSort_perm markerSortLe).map markerKey).nodup_iff).mpr hnd

/-- C10 (amended): `build_markers_from_layout` is invariant under permutation of its input provided the `(x, level, item_id)` sort keys are pairwise distinct.  (The unrestricted claim fails: see the counterexample with two placements sharing a key.) -/
theorem C10_amended_perm_invariant (ps1 ps2 : List Placement) (rollW : ℤ)
    (batchId : ℕ) (L : ℤ) (hp : ps1.Perm ps2)
    (hnd : (ps1.map markerKey).Nodup) :
    build_markers_from_layout ps1 rollW batchId L =
    build_markers_from_layout ps2 rollW batchId L := by
  have hsort : ps1.mergeSort markerSortLe = ps2.mergeSort markerSortLe :=
    mergeSort_markerKey_eq ps1 ps2 hp hnd
  by_cases h1 : ps1 = []
  · subst h1
    rw [hp.nil_eq]
  · have h2 : ps2 ≠ [] := fun h => h1 (by subst h; exact hp.symm.nil_eq.symm)
    unfold build_markers_from_layout
    rw [if_neg h1, if_neg h2, hsort]

/-- Witness for C10 (amended): swapping two distinct-key placements leaves the marker list unchanged. -/
theorem C10_amended_witness :
    build_markers_from_layout [c10Q1, c10Q2] 3000 1 5900 =
    build_markers_from_layout [c10Q2, c10Q1] 3000 1 5900 :=
  C10_amended_perm_invariant [c10Q1, c10Q2] [c10Q2, c10Q1] 3000 1 5900
    (List.Perm.swap c10Q2 c10Q1 [])
    (by with_unfolding_all decide)

/-- A `min`-fold is bounded by its seed. -/
theorem foldl_min_le_self : ∀ (l : List ℚ) (a : ℚ), l.foldl min a ≤ a := by
  intro l
  induction l with
  | nil => intro a; exact le_refl a
  | cons c t ih =>
      intro a
      simp only [List.foldl_cons]
      exact le_trans (ih (min a c)) (min_le_left a c)

/-- A `min`-fold is bounded by every list element. -/
theorem foldl_min_le_mem : ∀ (l : List ℚ) (a b : ℚ), b ∈ l → l.foldl min a ≤ b := by
  intro l
  induction l with
  | nil => intro a b hb; cases hb
  | cons c t ih =>
      intro a b hb
      simp only [List.foldl_cons]
      rcases List.mem_cons.mp hb with h | h
      · subst h
        exact le_trans (foldl_min_le_self t (min a b)) (min_le_right a b)
      · exact ih (min a c) b h

/-- A `max`-fold dominates its seed. -/
theorem le_foldl_max_self : ∀ (l : List ℚ) (a : ℚ), a ≤ l.foldl max a := by
  intro l
  induction l with
  | nil => intro a; exact le_refl a
  | cons c t ih =>
      intro a
      simp only [List.foldl_cons]
      exact le_trans (le_max_left a c) (ih (max a c))

/-- A `max`-fold dominates every list element. -/
theorem le_foldl_max_mem : ∀ (l : List ℚ) (a b : ℚ), b ∈ l → b ≤ l.foldl max a := by
  intro l
  induction l with
  | nil => intro a b hb; cases hb
  | cons c t ih =>
      intro a b hb
      simp only [List.foldl_cons]
      rcases List.mem_cons.mp hb with h | h
      · subst h
        exact le_trans (le_max_right a b) (le_foldl_max_self t (max a b))
      · exact ih (max a c) b h

/-- `min?.getD 0` is a lower bound on the list's elements. -/
theorem min?_getD_le_of_mem (l : List ℚ) (b : ℚ) (hb : b ∈ l) :
    l.min?.getD 0 ≤ b := by
  cases l with
  | nil => cases hb
  | cons c t =>
      show t.foldl min c ≤ b
      rcases List.mem_cons.mp hb with h | h
      · subst h; exact foldl_min_le_self t b
      · exact foldl_min_le_mem t c b h

/-- `max?.getD 0` is an upper bound on the list's elements. -/
theorem le_max?_getD_of_mem (l : List ℚ) (b : ℚ) (hb : b ∈ l) :
    b ≤ l.max?.getD 0 := by
  cases l with
  | nil => cases hb
  | cons c t =>
      show b ≤ t.foldl max c
      rcases List.mem_cons.mp hb with h | h
      · subst h; exact le_foldl_max_self t b
      · exact le_foldl_max_mem t c b h

/-- A `min`-fold commutes with subtracting a constant. -/
theorem foldl_min_sub (c : ℚ) : ∀ (l : List ℚ) (a : ℚ),
    (l.map (fun x => x - c)).foldl min (a - c) = l.foldl min a - c := by
  intro l
  induction l with
  | nil => intro a; rfl
  | cons b t ih =>
      intro a
      simp only [List.map_cons, List.foldl_cons]
      rw [min_sub_sub_right]
      exact ih (min a b)

/-- `min?` commutes with subtracting a constant. -/
theorem min?_map_sub (c : ℚ) (l : List ℚ) :
    (l.map (fun x => x - c)).min? = l.min?.map (fun x => x - c) := by
  cases l with
  | nil => rfl
  | cons a t =>
      show some ((t.map (fun x => x - c)).foldl min (a - c)) =
        some (t.foldl min a - c)
      rw [foldl_min_sub]

/-- The `x`-projection of the translated placements. -/
theorem loc_map_x (items : List Placement) (off : ℚ) :
    ((items.map (fun p => { p with x := p.x - off })).map (fun p => p.x)) =
      (items.map (fun p => p.x)).map (fun x => x - off) := by
  rw [List.map_map, List.map_map]
  rfl

/-- `_normalize_local_x` does not depend on the marker index: it always translates the group so that its minimal `x` becomes `0`. -/
theorem normalize_local_x_eq (items : List Placement) (idx : ℤ)
    (h : items ≠ []) :
    normalize_local_x items idx =
      items.map (fun p => { p with x := p.x - minX0 items }) := by
  unfold normalize_local_x
  rw [if_neg h]
  dsimp only
  rcases hm : (items.map (fun p => p.x)).min? with _ | m
  · rw [List.min?_eq_none_iff, List.map_eq_nil_iff] at hm
    exact absurd hm h
  · have hmin : ((items.map (fun p =>
        { p with x := p.x - idx * (MARKER_ROLL_LENGTH_MM : ℚ) })).map
          (fun p => p.x)).min?.getD 0 = m - idx * (MARKER_ROLL_LENGTH_MM : ℚ) := by
      rw [loc_map_x, min?_map_sub, hm]
      rfl
    have hm0 : minX0 items = m := by rw [minX0, hm]; rfl
    rw [hmin, hm0]
    split_ifs with h1 h2
    · rw [List.map_map]
      refine List.map_congr_left fun p hp => ?_
      show ({ p with x := p.x - idx * (MARKER_ROLL_LENGTH_MM : ℚ)
                + -(m - idx * (MARKER_ROLL_LENGTH_MM : ℚ)) } : Placement) = _
      congr 1
      ring
    · rw [List.map_map]
      refine List.map_congr_left fun p hp => ?_
      show ({ p with x := p.x - idx * (MARKER_ROLL_LENGTH_MM : ℚ)
                + -(m - idx * (MARKER_ROLL_LENGTH_MM : ℚ)) } : Placement) = _
      congr 1
      ring
    · have hoff : idx * (MARKER_ROLL_LENGTH_MM : ℚ) = m := by linarith
      refine List.map_congr_left fun p hp => ?_
      rw [hoff]

/-- The gap-aware length estimate does not depend on the marker index. -/
theorem estimate_indep (ps : List Placement) (i j : ℤ) :
    estimate_length_with_gaps ps i = estimate_length_with_gaps ps j := by
  by_cases h : ps = []
  · subst h; rfl
  · unfold estimate_length_with_gaps
    rw [if_neg h, if_neg h, normalize_local_x_eq ps i h, normalize_local_x_eq ps j h]

/-- A single rect has no x-gaps. -/
theorem countXGaps_singleton (r : Placement) : countXGaps [r] = 0 := by
  unfold countXGaps
  simp

/-- The length estimate of a single placement is its drop. -/
theorem estimate_singleton (p : Placement) (idx : ℤ) :
    estimate_length_with_gaps [p] idx = p.h := by
  unfold estimate_length_with_gaps
  rw [if_neg (by simp), normalize_local_x_eq _ idx (by simp)]
  have hm0 : minX0 [p] = p.x := by
    rw [minX0]
    rfl
  rw [hm0]
  rw [if_neg (by simp)]
  dsimp only
  simp only [List.map_cons, List.map_nil]
  rw [countXGaps_singleton]
  simp [List.max?]

/-- The greedy regrouping walk loses no placements and invents none: flushed groups plus the current group recover the input in order. -/
theorem splitWalk_join (L : ℚ) :
    ∀ (q : List Placement) (acc : List (ℤ × List Placement))
      (cur : List Placement) (nxt : ℤ),
      (((splitWalk L q acc cur nxt).1.flatMap (fun g => g.2)) ++
        (splitWalk L q acc cur nxt).2.1) =
        (acc.flatMap (fun g => g.2)) ++ cur ++ q := by
  intro q
  induction q with
  | nil =>
      intro acc cur nxt
      simp [splitWalk]
  | cons p rest ih =>
      intro acc cur nxt
      simp only [splitWalk]
      split
      · rw [ih]
        simp [List.flatMap_append]
      · rw [ih]
        simp

/-- If every drop fits one marker roll, every group the walk flushes has an estimate within `L + 1e-6`. -/
theorem splitWalk_good (L : ℚ) (hL : 0 ≤ eps6) :
    ∀ (q : List Placement) (acc : List (ℤ × List Placement))
      (cur : List Placement) (nxt : ℤ),
      (∀ p ∈ q, p.h ≤ L) →
      (∀ g ∈ acc, goodGroup L g.2) →
      (cur = [] ∨ goodGroup L cur) →
      (∀ g ∈ (splitWalk L q acc cur nxt).1, goodGroup L g.2) ∧
      ((splitWalk L q acc cur nxt).2.1 = [] ∨
        goodGroup L (splitWalk L q acc cur nxt).2.1) := by
  intro q
  induction q with
  | nil =>
      intro acc cur nxt hq hacc hcur
      exact ⟨hacc, hcur⟩
  | cons p rest ih =>
      intro acc cur nxt hq hacc hcur
      have hph : p.h ≤ L := hq p (List.mem_cons_self p rest)
      have hrest : ∀ x ∈ rest, x.h ≤ L := fun x hx => hq x (List.mem_cons_of_mem p hx)
      have hsing : goodGroup L [p] := by
        rw [goodGroup, estimate_singleton]
        linarith
      simp only [splitWalk]
      split
      case isTrue hcond =>
        refine ih (acc ++ [(nxt, cur)]) [p] (nxt + 1) hrest ?_ (Or.inr hsing)
        intro g hg
        rcases List.mem_append.mp hg with hg | hg
        · exact hacc g hg
        · simp only [List.mem_singleton] at hg
          subst hg
          rcases hcur with hc | hc
          · exact absurd hc hcond.2
          · exact hc
      case isFalse hcond =>
        refine ih acc (cur ++ [p]) nxt hrest hacc (Or.inr ?_)
        by_cases hc : cur = []
        · subst hc
          rw [List.nil_append]
          exact hsing
        · rw [goodGroup, estimate_indep _ 0 nxt]
          by_contra hgt
          push_neg at hgt
          exact (not_and.mp hcond hgt) hc

/-- The overlong-bucket split partitions its input exactly. -/
theorem splitGroups_join (L : ℚ) (q : List Placement) (nxt : ℤ) :
    (splitGroups L q nxt).1.flatMap (fun g => g.2) = q := by
  have hj := splitWalk_join L q [] [] nxt
  simp only [List.flatMap_nil, List.nil_append] at hj
  unfold splitGroups
  dsimp only
  split
  · simp only [List.flatMap_append]
    simpa using hj
  · next h =>
      rw [not_ne_iff] at h
      rw [h, List.append_nil] at hj
      exact hj

/-- Every group produced by the overlong-bucket split has an estimate within `L + 1e-6` when every drop fits. -/
theorem splitGroups_good (L : ℚ) (q : List Placement) (nxt : ℤ)
    (hq : ∀ p ∈ q, p.h ≤ L) :
    ∀ g ∈ (splitGroups L q nxt).1, goodGroup L g.2 := by
  have hw := splitWalk_good L (by norm_num [eps6]) q [] [] nxt hq
    (by intro g hg; cases hg) (Or.inl rfl)
  unfold splitGroups
  dsimp only
  split
  · next hne =>
      intro g hg
      rcases List.mem_append.mp hg with hg | hg
      · exact hw.1 g hg
      · simp only [List.mem_singleton] at hg
        subst hg
        rcases hw.2 with h | h
        · exact absurd h hne
        · exact h
  · exact hw.1

/-- Filtering a list by each key of a duplicate-free key list that covers it yields a permutation of the list. -/
theorem partition_perm {α K : Type _} [DecidableEq K] (f : α → K) :
    ∀ (ks : List K) (l : List α), ks.Nodup → (∀ a ∈ l, f a ∈ ks) →
      (ks.flatMap (fun k => l.filter (fun a => f a == k))).Perm l := by
  intro ks
  induction ks with
  | nil =>
      intro l _ hmem
      have hl : l = [] :=
        List.eq_nil_iff_forall_not_mem.mpr (fun a ha => by simpa using hmem a ha)
      simp [hl]
  | cons k ks ih =>
      intro l hnd hmem
      simp only [List.flatMap_cons]
      have hk : k ∉ ks := (List.nodup_cons.mp hnd).1
      have hstep : ks.flatMap (fun k2 => l.filter (fun a => f a == k2)) =
          ks.flatMap (fun k2 =>
            (l.filter (fun a => !(f a == k))).filter (fun a => f a == k2)) := by
        refine List.flatMap_congr fun k2 hk2 => ?_
        rw [List.filter_filter]
        refine (List.filter_congr fun a ha => ?_).symm
        by_cases hfa : f a = k2
        · have hne : ¬(k2 = k) := fun h2 => hk (h2 ▸ hk2)
          simp [hfa, hne]
        · simp [hfa]
      rw [hstep]
      have hsub : ∀ a ∈ l.filter (fun a => !(f a == k)), f a ∈ ks := by
        intro a ha
        have hal : a ∈ l := List.mem_of_mem_filter ha
        have hfk : ¬(f a = k) := by
          have := List.of_mem_filter ha
          simpa using this
        rcases List.mem_cons.mp (hmem a hal) with h | h
        · exact absurd h hfk
        · exact h
      have hperm := ih (l.filter (fun a => !(f a == k))) (List.nodup_cons.mp hnd).2 hsub
      exact (List.Perm.append_left _ hperm).trans
        (List.filter_append_perm (fun a => f a == k) l)

/-- A fold preserving a per-group invariant yields only groups with that invariant. -/
theorem foldl_groups_inv {σ K : Type _} (step : σ → K → σ) (proj : σ → List (ℤ × List Placement))
    (P : ℤ × List Placement → Prop)
    (hstep : ∀ st k, (∀ g ∈ proj st, P g) → ∀ g ∈ proj (step st k), P g) :
    ∀ (ks : List K) (st : σ), (∀ g ∈ proj st, P g) →
      ∀ g ∈ proj (ks.foldl step st), P g := by
  intro ks
  induction ks with
  | nil => intro st h; exact h
  | cons k ks ih =>
      intro st h
      exact ih (step st k) (hstep st k h)

/-- A fold that appends a permutation of `f k` per key accumulates a permutation of `ks.flatMap f`. -/
theorem foldl_groups_perm {σ K : Type _} (step : σ → K → σ)
    (proj : σ → List (ℤ × List Placement)) (f : K → List Placement)
    (hstep : ∀ st k, ((proj (step st k)).flatMap (fun g => g.2)).Perm
      (((proj st).flatMap (fun g => g.2)) ++ f k)) :
    ∀ (ks : List K) (st : σ),
      ((proj (ks.foldl step st)).flatMap (fun g => g.2)).Perm
        (((proj st).flatMap (fun g => g.2)) ++ ks.flatMap f) := by
  intro ks
  induction ks with
  | nil => intro st; simp
  | cons k ks ih =>
      intro st
      refine (ih (step st k)).trans ?_
      refine ((hstep st k).append_right (ks.flatMap f)).trans ?_
      rw [List.flatMap_cons, List.append_assoc]

/-- An empty bucket yields no marker (the `continue` branch). -/
theorem mkMarker_empty (rollW : ℤ) (batchId : ℕ) (L : ℤ)
    (kg : ℤ × List Placement) (mi : ℕ) (h : kg.2 = []) :
    mkMarker rollW batchId L kg mi = none := by
  simp [mkMarker, h, normalize_local_x]

/-- A nonempty group whose estimate fits one roll yields a marker with the group's `(item_id, w, h)` triples and all rects within `[0, length + 1/2]`: the pathological shift branch is dead. -/
theorem mkMarker_good (rollW : ℤ) (batchId : ℕ) (L : ℤ)
    (kg : ℤ × List Placement) (mi : ℕ) (hne : kg.2 ≠ [])
    (hgood : goodGroup (L : ℚ) kg.2) :
    ∃ m, mkMarker rollW batchId L kg mi = some m ∧
      m.rects.map rtriple = kg.2.map ptriple ∧
      ∀ r ∈ m.rects, 0 ≤ r.x ∧ r.x + r.h ≤ m.length_mm + 1/2 := by
  have hCne : kg.2.map (fun p => ({ p with x := p.x - minX0 kg.2 } : Placement)) ≠ [] := by
    simpa using hne
  have heps : eps6 ≤ 1/2 := by norm_num [eps6]
  unfold mkMarker
  dsimp only
  rw [normalize_local_x_eq kg.2 _ hne, if_neg hCne]
  set C := kg.2.map (fun p => ({ p with x := p.x - minX0 kg.2 } : Placement)) with hC
  set used0 := ((C.map (fun p => p.x + p.h)).max?).getD 0 with hu0
  set gc := countXGaps C with hgc
  set used1 := (if gc > 0 then used0 + (gc : ℚ) * SAFETY_GAP_X_MM else used0) with hu1
  have hest : estimate_length_with_gaps kg.2 0 = used1 := by
    unfold estimate_length_with_gaps
    rw [if_neg hne, normalize_local_x_eq kg.2 0 hne, if_neg hCne]
  rw [goodGroup, hest] at hgood
  have h01 : used0 ≤ used1 := by
    rw [hu1]
    split_ifs with h
    · have hs : (0:ℚ) ≤ (gc : ℚ) * SAFETY_GAP_X_MM :=
        mul_nonneg (Nat.cast_nonneg gc) (by norm_num [SAFETY_GAP_X_MM])
      linarith
    · exact le_refl _
  have hcond : ¬(used1 > (L : ℚ) + 1/2) := not_lt.mpr (by linarith)
  rw [if_neg hcond]
  dsimp only
  refine ⟨_, rfl, ?_, ?_⟩
  · dsimp only
    rw [hC, List.map_map, List.map_map]
    rfl
  · intro r hr
    dsimp only at hr
    rw [hC] at hr
    obtain ⟨pc, hpc, rfl⟩ := List.mem_map.mp hr
    obtain ⟨p, hp, rfl⟩ := List.mem_map.mp hpc
    constructor
    · show (0:ℚ) ≤ p.x - minX0 kg.2
      rw [minX0]
      have := min?_getD_le_of_mem (kg.2.map (fun q => q.x)) p.x
        (List.mem_map_of_mem (fun q => q.x) hp)
      linarith
    · show (p.x - minX0 kg.2) + p.h ≤ min used1 (L : ℚ) + 1/2
      have hv : (p.x - minX0 kg.2) + p.h ≤ used0 := by
        rw [hu0]
        exact le_max?_getD_of_mem _ _
          (List.mem_map_of_mem (fun q => q.x + q.h)
            (List.mem_map_of_mem (fun p => ({ p with x := p.x - minX0 kg.2 } : Placement)) hp))
      rcases le_total used1 (L : ℚ) with h | h
      · rw [min_eq_left h]
        linarith
      · rw [min_eq_right h]
        linarith

/-- The marker emission fold: concatenating all rect triples recovers the group triples in order, and every emitted marker is within bounds. -/
theorem marker_fold_spec (rollW : ℤ) (batchId : ℕ) (L : ℤ) :
    ∀ (gs : List (ℤ × List Placement)) (st : List Marker × ℕ),
      (∀ g ∈ gs, goodGroup (L : ℚ) g.2) →
      (∀ m ∈ st.1, markerOK m) →
      (((gs.foldl (fun (st : List Marker × ℕ) kg =>
          match mkMarker rollW batchId L kg st.2 with
          | some m => (st.1 ++ [m], st.2 + 1)
          | none => st) st).1.flatMap (fun m => m.rects.map rtriple)) =
        (st.1.flatMap (fun m => m.rects.map rtriple)) ++
          gs.flatMap (fun kg => kg.2.map ptriple)) ∧
      (∀ m ∈ (gs.foldl (fun (st : List Marker × ℕ) kg =>
          match mkMarker rollW batchId L kg st.2 with
          | some m => (st.1 ++ [m], st.2 + 1)
          | none => st) st).1, markerOK m) := by
  intro gs
  induction gs with
  | nil =>
      intro st hgs hst
      exact ⟨by simp, hst⟩
  | cons kg gs ih =>
      intro st hgs hst
      simp only [List.foldl_cons, List.flatMap_cons]
      by_cases hkg : kg.2 = []
      · rw [mkMarker_empty rollW batchId L kg st.2 hkg]
        have h0 := ih st (fun g hg => hgs g (List.mem_cons_of_mem kg hg)) hst
        refine ⟨?_, h0.2⟩
        rw [h0.1, hkg]
        simp
      · obtain ⟨m, hm, htr, hbd⟩ := mkMarker_good rollW batchId L kg st.2 hkg
          (hgs kg (List.mem_cons_self kg gs))
        rw [hm]
        have hst2 : ∀ m2 ∈ st.1 ++ [m], markerOK m2 := by
          intro m2 hm2
          rcases List.mem_append.mp hm2 with h | h
          · exact hst m2 h
          · simp only [List.mem_singleton] at h
            subst h
            exact hbd
        have h0 := ih (st.1 ++ [m], st.2 + 1)
          (fun g hg => hgs g (List.mem_cons_of_mem kg hg)) hst2
        refine ⟨?_, h0.2⟩
        rw [h0.1]
        simp only [List.flatMap_append, List.flatMap_cons, List.flatMap_nil,
          List.append_nil, htr, List.append_assoc]

/-- C3 (amended): when every input drop is at most the 5900 mm marker roll length, the markers partition the input placements — the concatenated `(item_id, w, h)` rect triples are a permutation of the input's triples (so no placement lands in two markers and `w`, `h` are unchanged) — and every rect satisfies `0 ≤ x` and `x + h ≤ length + 1/2`.  (Without the drop bound the rect bounds fail: see the counterexample.) -/
theorem C3_amended_marker_partition (ps : List Placement) (rollW : ℤ)
    (batchId : ℕ)
    (hh : ∀ p ∈ ps, p.h ≤ (MARKER_ROLL_LENGTH_MM : ℚ)) :
    ((build_markers_from_layout ps rollW batchId).flatMap
        (fun m => m.rects.map rtriple)).Perm (ps.map ptriple) ∧
    ∀ m ∈ build_markers_from_layout ps rollW batchId,
      ∀ r ∈ m.rects, 0 ≤ r.x ∧ r.x + r.h ≤ m.length_mm + 1/2 := by
  by_cases hps : ps = []
  · subst hps
    refine ⟨by simp [build_markers_from_layout], ?_⟩
    intro m hm
    simp [build_markers_from_layout] at hm
  · unfold build_markers_from_layout
    rw [if_neg hps]
    dsimp only
    set sortedPs := ps.mergeSort markerSortLe with hsorted
    set keys := ((sortedPs.map (assignBucket MARKER_ROLL_LENGTH_MM)).mergeSort
      (fun a b => decide (a ≤ b))).dedup with hkeys
    set MAXK := ((sortedPs.map (assignBucket MARKER_ROLL_LENGTH_MM)).max?).getD 0
      with hMAXK
    set STEP := (fun (st : List (ℤ × List Placement) × ℤ) (k : ℤ) =>
      if estimate_length_with_gaps
          (sortedPs.filter (fun p => assignBucket MARKER_ROLL_LENGTH_MM p == k)) k >
          (MARKER_ROLL_LENGTH_MM : ℚ) + eps6 then
        (st.1 ++ (splitGroups (MARKER_ROLL_LENGTH_MM : ℚ)
            ((sortedPs.filter
              (fun p => assignBucket MARKER_ROLL_LENGTH_MM p == k)).mergeSort
                markerSortLe) st.2).1,
          (splitGroups (MARKER_ROLL_LENGTH_MM : ℚ)
            ((sortedPs.filter
              (fun p => assignBucket MARKER_ROLL_LENGTH_MM p == k)).mergeSort
                markerSortLe) st.2).2)
      else (st.1 ++ [(k, sortedPs.filter
          (fun p => assignBucket MARKER_ROLL_LENGTH_MM p == k))], st.2)) with hSTEP
    set PROC := (keys.foldl STEP ([], MAXK + 1)).1 with hPROC
    set ORD := PROC.mergeSort (fun a b => decide (a.1 ≤ b.1)) with hORD
    have hhs : ∀ p ∈ sortedPs, p.h ≤ (MARKER_ROLL_LENGTH_MM : ℚ) := by
      intro p hp
      rw [hsorted] at hp
      exact hh p (List.mem_mergeSort.mp hp)
    have hkeysnd : keys.Nodup := by
      rw [hkeys]
      exact List.nodup_dedup _
    have hkmem : ∀ p ∈ sortedPs, assignBucket MARKER_ROLL_LENGTH_MM p ∈ keys := by
      intro p hp
      rw [hkeys, List.mem_dedup, List.mem_mergeSort]
      exact List.mem_map_of_mem _ hp
    have hstepgood : ∀ (st : List (ℤ × List Placement) × ℤ) (k : ℤ),
        (∀ g ∈ st.1, goodGroup (MARKER_ROLL_LENGTH_MM : ℚ) g.2) →
        ∀ g ∈ (STEP st k).1, goodGroup (MARKER_ROLL_LENGTH_MM : ℚ) g.2 := by
      intro st k hst
      rw [hSTEP]
      dsimp only
      by_cases hc : estimate_length_with_gaps
          (sortedPs.filter (fun p => assignBucket MARKER_ROLL_LENGTH_MM p == k)) k >
          (MARKER_ROLL_LENGTH_MM : ℚ) + eps6
      · rw [if_pos hc]
        intro g hg
        rcases List.mem_append.mp hg with hg | hg
        · exact hst g hg
        · refine splitGroups_good _ _ _ ?_ g hg
          intro p hp
          exact hhs p (List.mem_of_mem_filter (List.mem_mergeSort.mp hp))
      · rw [if_neg hc]
        intro g hg
        rcases List.mem_append.mp hg with hg | hg
        · exact hst g hg
        · simp only [List.mem_singleton] at hg
          subst hg
          rw [goodGroup, estimate_indep _ 0 k]
          exact not_lt.mp hc
    have hstepperm : ∀ (st : List (ℤ × List Placement) × ℤ) (k : ℤ),
        (((STEP st k).1).flatMap (fun g => g.2)).Perm
          ((st.1.flatMap (fun g => g.2)) ++
            (sortedPs.filter (fun p => assignBucket MARKER_ROLL_LENGTH_MM p == k))) := by
      intro st k
      rw [hSTEP]
      dsimp only
      by_cases hc : estimate_length_with_gaps
          (sortedPs.filter (fun p => assignBucket MARKER_ROLL_LENGTH_MM p == k)) k >
          (MARKER_ROLL_LENGTH_MM : ℚ) + eps6
      · rw [if_pos hc]
        dsimp only
        rw [List.flatMap_append, splitGroups_join]
        exact List.Perm.append_left _ (List.mergeSort_perm _ markerSortLe)
      · rw [if_neg hc]
        dsimp only
        rw [List.flatMap_append]
        simp only [List.flatMap_cons, List.flatMap_nil, List.append_nil]
        exact List.Perm.refl _
    have hPgood : ∀ g ∈ PROC, goodGroup (MARKER_ROLL_LENGTH_MM : ℚ) g.2 := by
      rw [hPROC]
      exact foldl_groups_inv STEP Prod.fst _ hstepgood keys ([], MAXK + 1)
        (by intro g hg; cases hg)
    have hPperm : (PROC.flatMap (fun g => g.2)).Perm sortedPs := by
      rw [hPROC]
      refine (foldl_groups_perm STEP Prod.fst _ hstepperm keys ([], MAXK + 1)).trans ?_
      simp only [List.flatMap_nil, List.nil_append]
      exact partition_perm (assignBucket MARKER_ROLL_LENGTH_MM) keys sortedPs
        hkeysnd hkmem
    have hOgood : ∀ g ∈ ORD, goodGroup (MARKER_ROLL_LENGTH_MM : ℚ) g.2 := by
      intro g hg
      rw [hORD] at hg
      exact hPgood g (List.mem_mergeSort.mp hg)
    have hOperm : (ORD.flatMap (fun g => g.2)).Perm sortedPs := by
      rw [hORD]
      exact (List.Perm.flatMap_right _ (List.mergeSort_perm PROC _)).trans hPperm
    have hspec := marker_fold_spec rollW batchId MARKER_ROLL_LENGTH_MM ORD ([], 1)
      hOgood (by intro m hm; cases hm)
    constructor
    · rw [hspec.1]
      dsimp only
      simp only [List.flatMap_nil, List.nil_append]
      have hmf : ORD.flatMap (fun kg => kg.2.map ptriple) =
          (ORD.flatMap (fun g => g.2)).map ptriple :=
        (List.map_flatMap ptriple (fun g => g.2) ORD).symm
      rw [hmf]
      have hsp : (sortedPs.map ptriple).Perm (ps.map ptriple) := by
        rw [hsorted]
        exact (List.mergeSort_perm ps markerSortLe).map ptriple
      exact (hOperm.map ptriple).trans hsp
    · intro m hm
      exact hspec.2 m hm

/-- Witness for C3 (amended) on a concrete two-piece layout. -/
theorem C3_amended_witness :
    ((build_markers_from_layout [c3W1, c3W2] 3000 1).flatMap
        (fun m => m.rects.map rtriple)).Perm ([c3W1, c3W2].map ptriple) ∧
    ∀ m ∈ build_markers_from_layout [c3W1, c3W2] 3000 1,
      ∀ r ∈ m.rects, 0 ≤ r.x ∧ r.x + r.h ≤ m.length_mm + 1/2 :=
  C3_amended_marker_partition [c3W1, c3W2] 3000 1 (by with_unfolding_all decide)

end Nester